import Mathlib

/-!
# puma-dev: host routing and dispatch (`src/puma/dev/http.go`)

A shallow embedding of the request-routing core of `http.go`:

* `pruneSub`, `hostForApp`, `director` : the host resolution algorithm;
* `ServeHTTP` : the dispatcher between the control-plane mux and the proxy;
* `status` : the status reporter;
* `AppClosed` : the close notification that empties the transport's idle pool.

Go strings are modelled by Lean `String`s.  The only byte the code searches for
is `'.'`, an ASCII byte that never occurs inside a multi-byte UTF-8 sequence, so
cutting at the character position of a dot yields the same substrings as
cutting at its byte position.

The application pool (`AppPool`, declared in a file that is not part of the
sources at hand) is a parameter: a record of state-passing operations over an
arbitrary pool state `σ`.
-/

namespace PumaDev

/-! ## Go values -/

/-- Go `error` values that are not `nil`.  `ErrUnknownApp` is the package-level
sentinel the resolution loop compares against with `==`; every other error is
`other`. -/
inductive Error where
  | ErrUnknownApp
  | other (msg : String)
  deriving DecidableEq, Repr

/-- What the routing core reads from an `*App`: the fields `Name` and `Scheme`
and the results of the accessors `Address()`, `Status()` and `Log()`. -/
structure App where
  Name : String
  Scheme : String
  Address : String
  Status : Int
  Log : String
  deriving DecidableEq, Repr

/-- The application pool as the routing core uses it, over a pool state `σ`.
`App` is `(*AppPool).App`: it answers either an application or a non-nil error
(the Go pair `(*App, error)` with exactly one component set), and may change the
pool (it launches applications on demand).  `WaitTilReady` is
`(*App).WaitTilReady`, answering `none` for a `nil` error.  `ForApps` yields the
applications the pool hands, in order, to the callback of `(*AppPool).ForApps`. -/
structure AppPool (σ : Type) where
  App : String → σ → Except Error PumaDev.App × σ
  WaitTilReady : PumaDev.App → σ → Option Error × σ
  ForApps : σ → List PumaDev.App × σ

/-- The values of the constants `Dead`, `Booting` and `Running`, declared with
the `Status` type outside `http.go`. -/
structure StatusConsts where
  Dead : Int
  Booting : Int
  Running : Int

/-- The part of `url.URL` a request carries. -/
structure URL where
  Scheme : String
  Host : String
  Path : String
  RawQuery : String
  deriving DecidableEq, Repr

/-- The part of `http.Request` the routing core reads and writes. -/
structure Request where
  Method : String
  Host : String
  URL : URL
  deriving DecidableEq, Repr

/-! ## `strings.IndexByte`, `strings.LastIndexByte` and slicing -/

/-- Scan for the first `c`, counting positions from `i`; `-1` when absent. -/
def indexFrom (c : Char) : List Char → Nat → Int
  | [], _ => -1
  | x :: xs, i => if x = c then (i : Int) else indexFrom c xs (i + 1)

/-- Go `strings.IndexByte(s, c)`: index of the first `c` in `s`, or `-1`. -/
def IndexByte (s : String) (c : Char) : Int := indexFrom c s.data 0

/-- Scan for the last `c`, counting positions from `i`; `last` when absent. -/
def lastIndexFrom (c : Char) : List Char → Nat → Int → Int
  | [], _, last => last
  | x :: xs, i, last => lastIndexFrom c xs (i + 1) (if x = c then (i : Int) else last)

/-- Go `strings.LastIndexByte(s, c)`: index of the last `c` in `s`, or `-1`. -/
def LastIndexByte (s : String) (c : Char) : Int := lastIndexFrom c s.data 0 (-1)

/-- Go slice expression `s[i:]`. -/
def sliceFrom (s : String) (i : Int) : String := ⟨s.data.drop i.toNat⟩

/-- Go slice expression `s[:i]`. -/
def sliceTo (s : String) (i : Int) : String := ⟨s.data.take i.toNat⟩

/-! ## Host resolution -/

/-- The function `pruneSub` of `http.go`. -/
def pruneSub (name : String) : String :=
  let dot := IndexByte name '.'
  if dot = -1 then "" else sliceFrom name (dot + 1)

/-- The `for name != ""` loop of `hostForApp`.  The answer is `.error e` when the
loop leaves the function with `return "", "", err`, and `.ok app` with the value
of the variable `app` when control reaches the statement after the loop
(`none` is the `nil` pointer).  The first argument bounds the number of
iterations; `hostForApp` passes the length of the name, which the loop never
exhausts since every pruning shortens the name (`hostForApp.loop_eq`). -/
def hostForApp.loop {σ : Type} (P : AppPool σ) :
    Nat → String → σ → Except Error (Option App) × σ
  | 0, _, s => (.ok none, s)
  | fuel + 1, name, s =>
    if name = "" then (.ok none, s)
    else
      match P.App name s with
      | (.error err, s1) =>
        if err = Error.ErrUnknownApp then hostForApp.loop P fuel (pruneSub name) s1
        else (.error err, s1)
      | (.ok app, s1) => (.ok (some app), s1)

/-- Lines 72 to 91 of `hostForApp`: the loop, then the lookup of `"default"`
when the loop left `app == nil`.  The answer is `.error e` when the function
returns `"", "", e` in these lines, and `.ok app` with the application held by
the variable `app` when control reaches `app.WaitTilReady()`. -/
def hostForApp.resolve {σ : Type} (P : AppPool σ) (name : String) (s : σ) :
    Except Error App × σ :=
  match hostForApp.loop P name.length name s with
  | (.error err, s1) => (.error err, s1)
  | (.ok none, s1) => P.App "default" s1
  | (.ok (some app), s1) => (.ok app, s1)

/-- Lines 93 to 98 of `hostForApp`: the readiness wait on the resolved
application and the final `return`. -/
def hostForApp.ready {σ : Type} (P : AppPool σ) (app : App) (s : σ) :
    (String × String × Option Error) × σ :=
  match P.WaitTilReady app s with
  | (some err, s1) => (("", "", some err), s1)
  | (none, s1) => ((app.Scheme, app.Address, none), s1)

/-- The method `hostForApp` of `http.go`: the triple `(string, string, error)`
it returns, and the pool state it leaves. -/
def hostForApp {σ : Type} (P : AppPool σ) (name : String) (s : σ) :
    (String × String × Option Error) × σ :=
  match hostForApp.resolve P name s with
  | (.error err, s1) => (("", "", some err), s1)
  | (.ok app, s1) => hostForApp.ready P app s1

/-- The name `director` cuts out of the host before calling `hostForApp`. -/
def director.name (host : String) : String :=
  let dot := LastIndexByte host '.'
  if dot = -1 then host else sliceTo host dot

/-- The method `director` of `http.go`: the request as it leaves it, the error
it returns, and the pool state. -/
def director {σ : Type} (P : AppPool σ) (req : Request) (s : σ) :
    (Request × Option Error) × σ :=
  let r := hostForApp P (director.name req.Host) s
  (({ req with URL := { req.URL with Scheme := r.1.1, Host := r.1.2.1 } }, r.1.2.2), r.2)

/-! ## Recording the calls made to the pool -/

/-- A call received by the pool. -/
inductive Call where
  | App (name : String)
  | WaitTilReady (app : App)
  | ForApps
  deriving DecidableEq, Repr

/-- Whether a call is a lookup `Pool.App`. -/
def Call.isApp : Call → Bool
  | Call.App _ => true
  | _ => false

/-- Whether a call is a readiness wait. -/
def Call.isWait : Call → Bool
  | Call.WaitTilReady _ => true
  | _ => false

/-- The pool `P` with a log: every operation behaves as in `P` and appends the
call it received to the log carried next to the pool state. -/
def AppPool.traced {σ : Type} (P : AppPool σ) : AppPool (σ × List Call) :=
  { App := fun name st =>
      ((P.App name st.1).1, ((P.App name st.1).2, st.2 ++ [Call.App name]))
    WaitTilReady := fun app st =>
      ((P.WaitTilReady app st.1).1,
        ((P.WaitTilReady app st.1).2, st.2 ++ [Call.WaitTilReady app]))
    ForApps := fun st =>
      ((P.ForApps st.1).1, ((P.ForApps st.1).2, st.2 ++ [Call.ForApps])) }

/-- The names the loop of `hostForApp` can present to the pool, in order:
`name`, `pruneSub name`, `pruneSub (pruneSub name)`, and so on, stopping before
the empty string (`candidates_get_iff`).  This list is a notion of the
specification, used to state what the loop does; the loop itself does not build
it.  The first argument bounds the length of the list. -/
def candidatesUpTo : Nat → String → List String
  | 0, _ => []
  | fuel + 1, name =>
    if name = "" then [] else name :: candidatesUpTo fuel (pruneSub name)

/-- The candidate names of `name`; its length bounds their number. -/
def candidates (name : String) : List String := candidatesUpTo name.length name

/-! ## Status reporter -/

/-- The local type `appStatus` of the method `status`. -/
structure appStatus where
  Scheme : String
  Address : String
  Status : String
  Log : String
  deriving DecidableEq, Repr

/-- The `switch a.Status()` of the callback in `status`: cases are tried in
order, `default` last. -/
def status.statusString (K : StatusConsts) (st : Int) : String :=
  if st = K.Dead then "dead"
  else if st = K.Booting then "booting"
  else if st = K.Running then "running"
  else "unknown"

/-- Go map assignment `m[k] = v` on a map held as a list of entries with
distinct keys: an entry under `k` is replaced. -/
def mapSet (m : List (String × appStatus)) (k : String) (v : appStatus) :
    List (String × appStatus) :=
  m.filter (fun e => e.1 ≠ k) ++ [(k, v)]

/-- The callback `status` passes to `ForApps`, as a step on the map `statuses`. -/
def status.visit (K : StatusConsts) (statuses : List (String × appStatus)) (a : App) :
    List (String × appStatus) :=
  mapSet statuses a.Name
    { Scheme := a.Scheme
      Address := a.Address
      Status := status.statusString K a.Status
      Log := a.Log }

/-- The entry the callback of `status` stores for the application `a`. -/
def status.entry (K : StatusConsts) (a : App) : appStatus :=
  { Scheme := a.Scheme
    Address := a.Address
    Status := status.statusString K a.Status
    Log := a.Log }

/-- The map `statuses` the method `status` has built when `ForApps` returns, and
the pool state. -/
def status.statuses {σ : Type} (P : AppPool σ) (K : StatusConsts) (s : σ) :
    List (String × appStatus) × σ :=
  ((P.ForApps s).1.foldl (status.visit K) [], (P.ForApps s).2)

/-- The method `status` of `http.go` on a world made of the pool state and the
response writer `β`; `encode` is `json.NewEncoder(w).Encode`. -/
def status {σ β : Type} (P : AppPool σ) (K : StatusConsts)
    (encode : List (String × appStatus) → β → β) (_req : Request) (w : σ × β) : σ × β :=
  ((status.statuses P K w.1).2, encode (status.statuses P K w.1).1 w.2)

/-! ## Dispatcher -/

/-- The two handlers `Setup` stores in the server, as transformers of a world
`ω`: `mux` is `h.mux.ServeHTTP` and `proxy` is `h.proxy.ServeHTTP`. -/
structure HTTPServer (ω : Type) where
  mux : Request → ω → ω
  proxy : Request → ω → ω

/-- The method `ServeHTTP` of `http.go`. -/
def ServeHTTP {ω : Type} (h : HTTPServer ω) (req : Request) (w : ω) : ω :=
  if req.Host = "puma-dev" then h.mux req w else h.proxy req w

/-- The handlers as `Setup` wires them.  The mux has the single route registered
by `h.mux.Get("/status", ...)`: `route` tells whether the mux matches a request
against it, `notFound` is what the mux answers otherwise.  The proxy is the
reverse proxy engine `engine` with `h.director` as its `Director` hook.  The
transport and the `AppClosed` hook, which take no part in the dispatch, are not
represented here. -/
def Setup {σ β : Type} (P : AppPool σ) (K : StatusConsts) (route : Request → Bool)
    (encode : List (String × appStatus) → β → β) (notFound : β → β)
    (engine : (Request → σ → (Request × Option Error) × σ) → Request → σ × β → σ × β) :
    HTTPServer (σ × β) :=
  { mux := fun req w => if route req then status P K encode req w else (w.1, notFound w.2)
    proxy := engine (director P) }

/-- The name of a handler of the server. -/
inductive Handler where
  | mux
  | proxy
  deriving DecidableEq, Repr

/-- The server `h` with a log: each handler behaves as in `h` and appends its
name to the log carried next to the world. -/
def HTTPServer.logged {ω : Type} (h : HTTPServer ω) : HTTPServer (ω × List Handler) :=
  { mux := fun req w => (h.mux req w.1, w.2 ++ [Handler.mux])
    proxy := fun req w => (h.proxy req w.1, w.2 ++ [Handler.proxy]) }

/-! ## Fixtures -/

/-- A pool without state whose registered applications are listed in `apps`
(looked up by name, first match) and are all ready; every other name answers
`ErrUnknownApp`. -/
def staticPool (apps : List App) : AppPool Unit :=
  { App := fun name s =>
      match apps.find? (fun a => a.Name = name) with
      | some a => (.ok a, s)
      | none => (.error Error.ErrUnknownApp, s)
    WaitTilReady := fun _ s => (none, s)
    ForApps := fun s => (apps, s) }

/-- A pool without state and without applications in which the lookup of
`broken` fails with the error `e`; every other name answers `ErrUnknownApp`. -/
def brokenPool (broken : String) (e : Error) : AppPool Unit :=
  { App := fun name s =>
      if name = broken then (.error e, s) else (.error Error.ErrUnknownApp, s)
    WaitTilReady := fun _ s => (none, s)
    ForApps := fun s => ([], s) }

/-- A pool whose state counts the calls it has received: it answers as
`staticPool apps` whatever the count, and every call changes the state. -/
def countingPool (apps : List App) : AppPool Nat :=
  { App := fun name n =>
      match apps.find? (fun a => a.Name = name) with
      | some a => (.ok a, n + 1)
      | none => (.error Error.ErrUnknownApp, n + 1)
    WaitTilReady := fun _ n => (none, n + 1)
    ForApps := fun n => (apps, n + 1) }

/-- An application with the given name and address, scheme `http`. -/
def fixtureApp (name address : String) : App :=
  { Name := name, Scheme := "http", Address := address, Status := 0, Log := "" }

/-- A `GET /` request addressed to `host`, with an empty target. -/
def fixtureRequest (host : String) : Request :=
  { Method := "GET", Host := host, URL := { Scheme := "", Host := "", Path := "/", RawQuery := "" } }

/-! ## Transport and close notification -/

/-- A pooled connection of the transport, keyed by scheme and host. -/
structure Conn where
  Scheme : String
  Host : String
  deriving DecidableEq, Repr

/-- The connection pool of the transport `httpu.Transport` (a package of the
repository outside `http.go`): the connections waiting for reuse and the
connections serving a request. -/
structure Transport where
  idle : List Conn
  inUse : List Conn
  deriving DecidableEq, Repr

/-- Modelled from the spec: `(*httpu.Transport).CloseIdleConnections`, whose
code is not in `http.go`.  The specification has it drop every pooled,
currently unused connection, never a connection in use, and never fail. -/
def Transport.CloseIdleConnections (t : Transport) : Transport :=
  { t with idle := [] }

/-- The method `AppClosed` of `http.go`, which `Setup` stores in
`h.Pool.AppClosed`: a step on the state `τ` of the transport, with
`closeIdle` standing for `h.transport.CloseIdleConnections`.  The application
is not used. -/
def AppClosed {τ : Type} (closeIdle : τ → τ) (_app : App) (t : τ) : τ :=
  closeIdle t

/-- An operation of the transport with a counter: it behaves as `op` and counts
its invocations. -/
def counted {τ : Type} (op : τ → τ) (t : τ × Nat) : τ × Nat :=
  (op t.1, t.2 + 1)

/-! ## Strings -/

theorem data_ne_nil {s : String} (h : s ≠ "") : s.data ≠ [] := by
  intro hd
  exact h (String.ext hd)

theorem length_pos_of_ne {s : String} (h : s ≠ "") : 0 < s.length := by
  have := data_ne_nil h
  rw [String.length]
  exact List.length_pos.mpr this

theorem eq_empty_of_length_zero {s : String} (h : s.length = 0) : s = "" := by
  apply String.ext
  rw [String.length] at h
  exact List.length_eq_zero.mp h

theorem indexFrom_bounds (c : Char) (l : List Char) (i : Nat) :
    indexFrom c l i = -1 ∨ ((i : Int) ≤ indexFrom c l i ∧ indexFrom c l i < i + l.length) := by
  induction l generalizing i with
  | nil => left; rfl
  | cons x xs ih =>
    unfold indexFrom
    by_cases hx : x = c
    · right
      simp only [hx, if_true, List.length_cons]
      constructor <;> omega
    · simp only [hx, if_false]
      rcases ih (i + 1) with h | ⟨h1, h2⟩
      · left; exact h
      · right
        simp only [List.length_cons]
        constructor
        · push_cast at h1; omega
        · push_cast at h2 ⊢; omega

theorem indexFrom_of_not_mem (c : Char) (l : List Char) (i : Nat) (h : c ∉ l) :
    indexFrom c l i = -1 := by
  induction l generalizing i with
  | nil => rfl
  | cons x xs ih =>
    simp only [List.mem_cons, not_or] at h
    unfold indexFrom
    rw [if_neg (fun e => h.1 e.symm)]
    exact ih (i + 1) h.2

theorem indexFrom_append (c : Char) (pre rest : List Char) (i : Nat) (h : c ∉ pre) :
    indexFrom c (pre ++ c :: rest) i = (i + pre.length : Nat) := by
  induction pre generalizing i with
  | nil => simp [indexFrom]
  | cons x xs ih =>
    simp only [List.mem_cons, not_or] at h
    simp only [List.cons_append, List.length_cons]
    unfold indexFrom
    rw [if_neg (fun e => h.1 e.symm), ih (i + 1) h.2]
    congr 1
    omega

theorem pruneSub_length_lt {name : String} (h : name ≠ "") :
    (pruneSub name).length < name.length := by
  have hpos := length_pos_of_ne h
  unfold pruneSub
  simp only
  split
  · exact hpos
  · rename_i hdot
    rcases indexFrom_bounds '.' name.data 0 with h1 | ⟨h1, _⟩
    · exact absurd h1 hdot
    · simp only [sliceFrom, String.length, List.length_drop]
      rw [String.length] at hpos
      have : 0 < (IndexByte name '.' + 1).toNat := by
        unfold IndexByte
        omega
      omega

theorem pruneSub_empty : pruneSub "" = "" := by decide

/-! ## The resolution loop -/

theorem loop_empty {σ : Type} (P : AppPool σ) (fuel : Nat) (s : σ) :
    hostForApp.loop P fuel "" s = (.ok none, s) := by
  cases fuel <;> simp [hostForApp.loop]

theorem loop_succ {σ : Type} (P : AppPool σ) (fuel : Nat) (name : String) (s : σ)
    (h : name ≠ "") :
    hostForApp.loop P (fuel + 1) name s =
      match P.App name s with
      | (.error err, s1) =>
        if err = Error.ErrUnknownApp then hostForApp.loop P fuel (pruneSub name) s1
        else (.error err, s1)
      | (.ok app, s1) => (.ok (some app), s1) := by
  rw [hostForApp.loop, if_neg h]

/-- Any bound at least the length of the name gives the same run of the loop. -/
theorem loop_fuel {σ : Type} (P : AppPool σ) (n : Nat) :
    ∀ (fuel : Nat) (name : String) (s : σ), fuel ≤ n → name.length ≤ fuel →
      hostForApp.loop P fuel name s = hostForApp.loop P name.length name s := by
  induction n with
  | zero =>
    intro fuel name s h1 h2
    have : name.length = fuel := by omega
    rw [this]
  | succ n ih =>
    intro fuel name s h1 h2
    by_cases hname : name = ""
    · subst hname
      rw [loop_empty, loop_empty]
    · have hlt := pruneSub_length_lt hname
      obtain ⟨m, hm⟩ : ∃ m, name.length = m + 1 := ⟨name.length - 1, by omega⟩
      obtain ⟨f, hf⟩ : ∃ f, fuel = f + 1 := ⟨fuel - 1, by omega⟩
      rw [hm, hf, loop_succ P f name s hname, loop_succ P m name s hname]
      rcases P.App name s with ⟨r, s1⟩
      cases r with
      | error err =>
        simp only
        rw [ih f (pruneSub name) s1 (by omega) (by omega)]
        rw [ih m (pruneSub name) s1 (by omega) (by omega)]
      | ok app => rfl

/-- The loop of `hostForApp`, without the bound: one iteration on a non-empty
name, followed by the loop on the pruned name. -/
theorem hostForApp.loop_eq {σ : Type} (P : AppPool σ) (name : String) (s : σ) :
    hostForApp.loop P name.length name s =
      if name = "" then (.ok none, s)
      else
        match P.App name s with
        | (.error err, s1) =>
          if err = Error.ErrUnknownApp then
            hostForApp.loop P (pruneSub name).length (pruneSub name) s1
          else (.error err, s1)
        | (.ok app, s1) => (.ok (some app), s1) := by
  by_cases hname : name = ""
  · subst hname
    rw [loop_empty, if_pos rfl]
  · have hlt := pruneSub_length_lt hname
    obtain ⟨m, hm⟩ : ∃ m, name.length = m + 1 := ⟨name.length - 1, by omega⟩
    rw [if_neg hname, hm, loop_succ P m name s hname]
    rcases P.App name s with ⟨r, s1⟩
    cases r with
    | error err =>
      simp only
      rw [loop_fuel P m m (pruneSub name) s1 (le_refl m) (by omega)]
    | ok app => rfl

theorem loop_unknown {σ : Type} (P : AppPool σ) (name : String) (s : σ) (h : name ≠ "")
    (hu : (P.App name s).1 = .error Error.ErrUnknownApp) :
    hostForApp.loop P name.length name s =
      hostForApp.loop P (pruneSub name).length (pruneSub name) (P.App name s).2 := by
  rw [hostForApp.loop_eq, if_neg h]
  rcases hp : P.App name s with ⟨r, s1⟩
  rw [hp] at hu
  simp only at hu
  subst hu
  simp

theorem loop_found {σ : Type} (P : AppPool σ) (name : String) (s : σ) (h : name ≠ "")
    (a : App) (hu : (P.App name s).1 = .ok a) :
    hostForApp.loop P name.length name s = (.ok (some a), (P.App name s).2) := by
  rw [hostForApp.loop_eq, if_neg h]
  rcases hp : P.App name s with ⟨r, s1⟩
  rw [hp] at hu
  simp only at hu
  subst hu
  rfl

theorem loop_fatal {σ : Type} (P : AppPool σ) (name : String) (s : σ) (h : name ≠ "")
    (e : Error) (he : e ≠ Error.ErrUnknownApp) (hu : (P.App name s).1 = .error e) :
    hostForApp.loop P name.length name s = (.error e, (P.App name s).2) := by
  rw [hostForApp.loop_eq, if_neg h]
  rcases hp : P.App name s with ⟨r, s1⟩
  rw [hp] at hu
  simp only at hu
  subst hu
  simp [he]

/-! ## Candidate names -/

theorem candidatesUpTo_empty (fuel : Nat) : candidatesUpTo fuel "" = [] := by
  cases fuel <;> simp [candidatesUpTo]

theorem candidatesUpTo_fuel (n : Nat) :
    ∀ (fuel : Nat) (name : String), fuel ≤ n → name.length ≤ fuel →
      candidatesUpTo fuel name = candidatesUpTo name.length name := by
  induction n with
  | zero =>
    intro fuel name h1 h2
    have : name.length = fuel := by omega
    rw [this]
  | succ n ih =>
    intro fuel name h1 h2
    by_cases hname : name = ""
    · subst hname
      rw [candidatesUpTo_empty, candidatesUpTo_empty]
    · have hlt := pruneSub_length_lt hname
      obtain ⟨m, hm⟩ : ∃ m, name.length = m + 1 := ⟨name.length - 1, by omega⟩
      obtain ⟨f, hf⟩ : ∃ f, fuel = f + 1 := ⟨fuel - 1, by omega⟩
      rw [hm, hf, candidatesUpTo, candidatesUpTo, if_neg hname, if_neg hname]
      rw [ih f (pruneSub name) (by omega) (by omega)]
      rw [ih m (pruneSub name) (by omega) (by omega)]

theorem candidates_empty : candidates "" = [] := by decide

theorem candidates_cons {name : String} (h : name ≠ "") :
    candidates name = name :: candidates (pruneSub name) := by
  have hlt := pruneSub_length_lt h
  obtain ⟨m, hm⟩ : ∃ m, name.length = m + 1 := ⟨name.length - 1, by omega⟩
  unfold candidates
  rw [hm, candidatesUpTo, if_neg h]
  rw [candidatesUpTo_fuel m m (pruneSub name) (le_refl m) (by omega)]

theorem candidates_ne_empty {name c : String} (h : c ∈ candidates name) : c ≠ "" := by
  suffices H : ∀ n (name : String), name.length ≤ n → c ∈ candidates name → c ≠ "" from
    H name.length name (le_refl _) h
  intro n
  induction n with
  | zero =>
    intro name hn hc
    rw [eq_empty_of_length_zero (by omega : name.length = 0), candidates_empty] at hc
    simp at hc
  | succ n ih =>
    intro name hn hc
    by_cases hname : name = ""
    · rw [hname, candidates_empty] at hc
      simp at hc
    · rw [candidates_cons hname] at hc
      rcases List.mem_cons.mp hc with h1 | h1
      · rw [h1]; exact hname
      · have hlt := pruneSub_length_lt hname
        exact ih (pruneSub name) (by omega) h1

/-! ## Runs on a traced pool -/

theorem traced_App {σ : Type} (P : AppPool σ) (name : String) (s : σ) (t : List Call) :
    P.traced.App name (s, t) = ((P.App name s).1, ((P.App name s).2, t ++ [Call.App name])) :=
  rfl

theorem traced_WaitTilReady {σ : Type} (P : AppPool σ) (a : App) (s : σ) (t : List Call) :
    P.traced.WaitTilReady a (s, t) =
      ((P.WaitTilReady a s).1, ((P.WaitTilReady a s).2, t ++ [Call.WaitTilReady a])) :=
  rfl

/-- The log does not influence the run of the loop. -/
theorem loop_traced {σ : Type} (P : AppPool σ) (fuel : Nat) :
    ∀ (name : String) (s : σ) (t : List Call),
      (hostForApp.loop P.traced fuel name (s, t)).1 = (hostForApp.loop P fuel name s).1 ∧
      (hostForApp.loop P.traced fuel name (s, t)).2.1 = (hostForApp.loop P fuel name s).2 := by
  induction fuel with
  | zero => intro name s t; exact ⟨rfl, rfl⟩
  | succ fuel ih =>
    intro name s t
    by_cases hname : name = ""
    · subst hname
      rw [loop_empty, loop_empty]
      exact ⟨rfl, rfl⟩
    · rw [loop_succ _ fuel name _ hname, loop_succ _ fuel name _ hname, traced_App]
      rcases P.App name s with ⟨r, s1⟩
      cases r with
      | error err =>
        by_cases he : err = Error.ErrUnknownApp
        · simp only [he, if_true]
          exact ih (pruneSub name) s1 _
        · simp [he]
      | ok app => exact ⟨rfl, rfl⟩

/-- The loop adds to the log only lookups, one for each candidate it presents. -/
theorem loop_traced_calls {σ : Type} (P : AppPool σ) (fuel : Nat) :
    ∀ (name : String) (s : σ) (t : List Call),
      ∃ names : List String, names <+: candidatesUpTo fuel name ∧
        (hostForApp.loop P.traced fuel name (s, t)).2.2 = t ++ names.map Call.App := by
  induction fuel with
  | zero => intro name s t; exact ⟨[], List.nil_prefix, by simp [hostForApp.loop]⟩
  | succ fuel ih =>
    intro name s t
    by_cases hname : name = ""
    · subst hname
      rw [loop_empty]
      exact ⟨[], List.nil_prefix, by simp⟩
    · rw [loop_succ _ fuel name _ hname, traced_App, candidatesUpTo, if_neg hname]
      rcases P.App name s with ⟨r, s1⟩
      cases r with
      | error err =>
        by_cases he : err = Error.ErrUnknownApp
        · simp only [he, if_true]
          obtain ⟨names, hp, hn⟩ := ih (pruneSub name) s1 (t ++ [Call.App name])
          refine ⟨name :: names, ?_, ?_⟩
          · exact (List.prefix_cons_inj name).mpr hp
          · rw [hn]; simp
        · simp only [he, if_false]
          exact ⟨[name], by simp, by simp⟩
      | ok app => exact ⟨[name], by simp, by simp⟩

/-- Candidates answered with `ErrUnknownApp` are looked up once each and passed
over: the loop continues from the first candidate after them. -/
theorem loop_traced_skip {σ : Type} (P : AppPool σ) (pre : List String) :
    ∀ (name c : String) (post : List String), candidates name = pre ++ c :: post →
      (∀ x ∈ pre, ∀ s, (P.App x s).1 = .error Error.ErrUnknownApp) →
      ∀ (s : σ) (t : List Call), ∃ s1 : σ,
        hostForApp.loop P.traced name.length name (s, t) =
          hostForApp.loop P.traced c.length c (s1, t ++ pre.map Call.App) := by
  induction pre with
  | nil =>
    intro name c post hc _ s t
    have hname : name ≠ "" := by
      intro h
      rw [h, candidates_empty] at hc
      simp at hc
    rw [candidates_cons hname] at hc
    simp only [List.nil_append, List.cons.injEq] at hc
    rw [hc.1]
    exact ⟨s, by simp⟩
  | cons p pre ih =>
    intro name c post hc hu s t
    have hname : name ≠ "" := by
      intro h
      rw [h, candidates_empty] at hc
      simp at hc
    rw [candidates_cons hname] at hc
    simp only [List.cons_append, List.cons.injEq] at hc
    obtain ⟨hp, hrest⟩ := hc
    subst hp
    have h0 : (P.traced.App name (s, t)).1 = .error Error.ErrUnknownApp :=
      hu name (List.mem_cons_self _ _) s
    rw [loop_unknown P.traced name (s, t) hname h0, traced_App]
    obtain ⟨s1, h1⟩ := ih (pruneSub name) c post hrest
      (fun x hx => hu x (List.mem_cons_of_mem _ hx)) (P.App name s).2 (t ++ [Call.App name])
    exact ⟨s1, by rw [h1]; simp⟩

/-- When every candidate is answered with `ErrUnknownApp`, the loop looks each
of them up once and ends with `app == nil`. -/
theorem loop_traced_exhausted {σ : Type} (P : AppPool σ) (l : List String) :
    ∀ (name : String), candidates name = l →
      (∀ x ∈ l, ∀ s, (P.App x s).1 = .error Error.ErrUnknownApp) →
      ∀ (s : σ) (t : List Call), ∃ s1 : σ,
        hostForApp.loop P.traced name.length name (s, t) =
          (.ok none, (s1, t ++ l.map Call.App)) := by
  induction l with
  | nil =>
    intro name hc _ s t
    have hname : name = "" := by
      by_contra h
      rw [candidates_cons h] at hc
      simp at hc
    subst hname
    exact ⟨s, by rw [loop_empty]; simp⟩
  | cons p l ih =>
    intro name hc hu s t
    have hname : name ≠ "" := by
      intro h
      rw [h, candidates_empty] at hc
      simp at hc
    rw [candidates_cons hname] at hc
    simp only [List.cons.injEq] at hc
    obtain ⟨hp, hrest⟩ := hc
    subst hp
    have h0 : (P.traced.App name (s, t)).1 = .error Error.ErrUnknownApp :=
      hu name (List.mem_cons_self _ _) s
    rw [loop_unknown P.traced name (s, t) hname h0, traced_App]
    obtain ⟨s1, h1⟩ := ih (pruneSub name) hrest
      (fun x hx => hu x (List.mem_cons_of_mem _ hx)) (P.App name s).2 (t ++ [Call.App name])
    exact ⟨s1, by rw [h1]; simp⟩

/-! ## From the loop to `hostForApp` and `director` -/

theorem resolve_of_loop_error {σ : Type} {P : AppPool σ} {name : String} {s s1 : σ}
    {e : Error} (h : hostForApp.loop P name.length name s = (.error e, s1)) :
    hostForApp.resolve P name s = (.error e, s1) := by
  simp [hostForApp.resolve, h]

theorem resolve_of_loop_found {σ : Type} {P : AppPool σ} {name : String} {s s1 : σ}
    {a : App} (h : hostForApp.loop P name.length name s = (.ok (some a), s1)) :
    hostForApp.resolve P name s = (.ok a, s1) := by
  simp [hostForApp.resolve, h]

theorem resolve_of_loop_none {σ : Type} {P : AppPool σ} {name : String} {s s1 : σ}
    (h : hostForApp.loop P name.length name s = (.ok none, s1)) :
    hostForApp.resolve P name s = P.App "default" s1 := by
  simp [hostForApp.resolve, h]

theorem hostForApp_of_resolve_error {σ : Type} {P : AppPool σ} {name : String} {s s1 : σ}
    {e : Error} (h : hostForApp.resolve P name s = (.error e, s1)) :
    hostForApp P name s = (("", "", some e), s1) := by
  simp [hostForApp, h]

theorem hostForApp_of_resolve_ok {σ : Type} {P : AppPool σ} {name : String} {s s1 : σ}
    {a : App} (h : hostForApp.resolve P name s = (.ok a, s1)) :
    hostForApp P name s = hostForApp.ready P a s1 := by
  simp [hostForApp, h]

theorem ready_of_nil {σ : Type} {P : AppPool σ} {a : App} {s : σ}
    (h : (P.WaitTilReady a s).1 = none) :
    hostForApp.ready P a s = ((a.Scheme, a.Address, none), (P.WaitTilReady a s).2) := by
  unfold hostForApp.ready
  rcases hw : P.WaitTilReady a s with ⟨r, s1⟩
  rw [hw] at h
  simp only at h
  subst h
  rfl

theorem ready_of_error {σ : Type} {P : AppPool σ} {a : App} {s : σ} {e : Error}
    (h : (P.WaitTilReady a s).1 = some e) :
    hostForApp.ready P a s = (("", "", some e), (P.WaitTilReady a s).2) := by
  unfold hostForApp.ready
  rcases hw : P.WaitTilReady a s with ⟨r, s1⟩
  rw [hw] at h
  simp only at h
  subst h
  rfl

/-- The log does not influence what `hostForApp.resolve` answers. -/
theorem resolve_traced {σ : Type} (P : AppPool σ) (name : String) (s : σ) (t : List Call) :
    (hostForApp.resolve P.traced name (s, t)).1 = (hostForApp.resolve P name s).1 ∧
    (hostForApp.resolve P.traced name (s, t)).2.1 = (hostForApp.resolve P name s).2 := by
  obtain ⟨h1, h2⟩ := loop_traced P name.length name s t
  rcases hl : hostForApp.loop P name.length name s with ⟨r, s1⟩
  rcases hlt : hostForApp.loop P.traced name.length name (s, t) with ⟨r', s1', t'⟩
  rw [hl, hlt] at h1 h2
  simp only at h1 h2
  subst h1 h2
  cases r' with
  | error e => rw [resolve_of_loop_error hl, resolve_of_loop_error hlt]; exact ⟨rfl, rfl⟩
  | ok found =>
    cases found with
    | none => rw [resolve_of_loop_none hl, resolve_of_loop_none hlt]; exact ⟨rfl, rfl⟩
    | some a => rw [resolve_of_loop_found hl, resolve_of_loop_found hlt]; exact ⟨rfl, rfl⟩

/-- The log does not influence what `hostForApp` returns. -/
theorem hostForApp_traced {σ : Type} (P : AppPool σ) (name : String) (s : σ) (t : List Call) :
    (hostForApp P.traced name (s, t)).1 = (hostForApp P name s).1 ∧
    (hostForApp P.traced name (s, t)).2.1 = (hostForApp P name s).2 := by
  obtain ⟨h1, h2⟩ := resolve_traced P name s t
  rcases hl : hostForApp.resolve P name s with ⟨r, s1⟩
  rcases hlt : hostForApp.resolve P.traced name (s, t) with ⟨r', s1', t'⟩
  rw [hl, hlt] at h1 h2
  simp only at h1 h2
  subst h1 h2
  cases r' with
  | error e =>
    rw [hostForApp_of_resolve_error hl, hostForApp_of_resolve_error hlt]; exact ⟨rfl, rfl⟩
  | ok a =>
    rw [hostForApp_of_resolve_ok hl, hostForApp_of_resolve_ok hlt]
    unfold hostForApp.ready
    rw [traced_WaitTilReady]
    rcases P.WaitTilReady a s1' with ⟨w, s2⟩
    cases w <;> exact ⟨rfl, rfl⟩

/-- The log does not influence what `director` does to the request and returns. -/
theorem director_traced {σ : Type} (P : AppPool σ) (req : Request) (s : σ) (t : List Call) :
    (director P.traced req (s, t)).1 = (director P req s).1 ∧
    (director P.traced req (s, t)).2.1 = (director P req s).2 := by
  obtain ⟨h1, h2⟩ := hostForApp_traced P (director.name req.Host) s t
  unfold director
  simp only [h1, h2, and_self]

theorem resolve_traced_found {σ : Type} (P : AppPool σ) (name c : String)
    (pre post : List String) (a : App) (hc : candidates name = pre ++ c :: post)
    (hu : ∀ x ∈ pre, ∀ s, (P.App x s).1 = .error Error.ErrUnknownApp)
    (ha : ∀ s, (P.App c s).1 = .ok a) (s : σ) (t : List Call) :
    ∃ s1 : σ, hostForApp.resolve P.traced name (s, t) =
      (.ok a, (s1, t ++ (pre ++ [c]).map Call.App)) := by
  obtain ⟨s0, h0⟩ := loop_traced_skip P pre name c post hc hu s t
  have hcne : c ≠ "" := @candidates_ne_empty name c (by rw [hc]; simp)
  have h1 := loop_found P.traced c (s0, t ++ pre.map Call.App) hcne a (ha s0)
  rw [traced_App] at h1
  refine ⟨(P.App c s0).2, ?_⟩
  rw [resolve_of_loop_found (h0.trans h1)]
  simp

theorem resolve_traced_fatal {σ : Type} (P : AppPool σ) (name c : String)
    (pre post : List String) (e : Error) (hc : candidates name = pre ++ c :: post)
    (hu : ∀ x ∈ pre, ∀ s, (P.App x s).1 = .error Error.ErrUnknownApp)
    (he : e ≠ Error.ErrUnknownApp)
    (ha : ∀ s, (P.App c s).1 = .error e) (s : σ) (t : List Call) :
    ∃ s1 : σ, hostForApp.resolve P.traced name (s, t) =
      (.error e, (s1, t ++ (pre ++ [c]).map Call.App)) := by
  obtain ⟨s0, h0⟩ := loop_traced_skip P pre name c post hc hu s t
  have hcne : c ≠ "" := @candidates_ne_empty name c (by rw [hc]; simp)
  have h1 := loop_fatal P.traced c (s0, t ++ pre.map Call.App) hcne e he (ha s0)
  rw [traced_App] at h1
  refine ⟨(P.App c s0).2, ?_⟩
  rw [resolve_of_loop_error (h0.trans h1)]
  simp

theorem resolve_traced_default {σ : Type} (P : AppPool σ) (name : String)
    (hu : ∀ x ∈ candidates name, ∀ s, (P.App x s).1 = .error Error.ErrUnknownApp)
    (s : σ) (t : List Call) :
    ∃ s1 : σ, hostForApp.resolve P.traced name (s, t) =
      ((P.App "default" s1).1, ((P.App "default" s1).2,
        t ++ (candidates name ++ ["default"]).map Call.App)) := by
  obtain ⟨s0, h0⟩ := loop_traced_exhausted P (candidates name) name rfl hu s t
  refine ⟨s0, ?_⟩
  rw [resolve_of_loop_none h0, traced_App]
  simp

/-! ## Lists -/

theorem split_at_index {α : Type} (l : List α) :
    ∀ (k : Nat) (c : α), l[k]? = some c →
      l = l.take k ++ c :: l.drop (k + 1) ∧ l.take (k + 1) = l.take k ++ [c] := by
  induction l with
  | nil => intro k c h; simp at h
  | cons x xs ih =>
    intro k c h
    cases k with
    | zero =>
      simp only [List.getElem?_cons_zero, Option.some.injEq] at h
      subst h
      simp
    | succ k =>
      simp only [List.getElem?_cons_succ] at h
      obtain ⟨h1, h2⟩ := ih k c h
      constructor
      · simp only [List.take_succ_cons, List.drop_succ_cons, List.cons_append]
        rw [← h1]
      · simp only [List.take_succ_cons, List.cons_append]
        rw [← h2]

theorem index_of_mem_take {α : Type} (l : List α) :
    ∀ (k : Nat) (x : α), x ∈ l.take k → ∃ i, i < k ∧ l[i]? = some x := by
  induction l with
  | nil => intro k x h; simp at h
  | cons y ys ih =>
    intro k x h
    cases k with
    | zero => simp at h
    | succ k =>
      simp only [List.take_succ_cons, List.mem_cons] at h
      rcases h with h | h
      · exact ⟨0, by omega, by simp [h]⟩
      · obtain ⟨i, hi, hx⟩ := ih k x h
        exact ⟨i + 1, by omega, by simpa using hx⟩

/-- The candidate names are the iterated prunings of the name, up to the first
empty one. -/
theorem candidates_get_iff (i : Nat) :
    ∀ (name x : String), (candidates name)[i]? = some x ↔ x = pruneSub^[i] name ∧ x ≠ "" := by
  have hfix : ∀ n : Nat, pruneSub^[n] "" = "" := by
    intro n
    induction n with
    | zero => rfl
    | succ n ih => rw [Function.iterate_succ_apply, pruneSub_empty, ih]
  induction i with
  | zero =>
    intro name x
    by_cases h : name = ""
    · subst h
      rw [candidates_empty]
      simp only [List.getElem?_nil, Function.iterate_zero, id_eq, false_iff, not_and,
        not_not, reduceCtorEq]
      exact fun h => h
    · rw [candidates_cons h]
      simp only [List.getElem?_cons_zero, Option.some.injEq, Function.iterate_zero, id_eq]
      constructor
      · intro e; subst e; exact ⟨rfl, h⟩
      · intro e; exact e.1.symm
  | succ i ih =>
    intro name x
    by_cases h : name = ""
    · subst h
      rw [candidates_empty, hfix]
      simp only [List.getElem?_nil, false_iff, not_and, not_not, reduceCtorEq]
      exact fun h => h
    · rw [candidates_cons h, Function.iterate_succ_apply]
      simp only [List.getElem?_cons_succ]
      exact ih (pruneSub name) x

/-! ## Cutting at dots -/

theorem lastIndexFrom_of_not_mem (c : Char) (l : List Char) :
    ∀ (i : Nat) (last : Int), c ∉ l → lastIndexFrom c l i last = last := by
  induction l with
  | nil => intro i last _; rfl
  | cons x xs ih =>
    intro i last h
    simp only [List.mem_cons, not_or] at h
    unfold lastIndexFrom
    rw [if_neg (fun e => h.1 e.symm)]
    exact ih (i + 1) last h.2

theorem lastIndexFrom_append (c : Char) (pre t : List Char) (ht : c ∉ t) :
    ∀ (i : Nat) (last : Int),
      lastIndexFrom c (pre ++ c :: t) i last = ((i + pre.length : Nat) : Int) := by
  induction pre with
  | nil =>
    intro i last
    simp only [List.nil_append, List.length_nil, Nat.add_zero]
    unfold lastIndexFrom
    rw [if_pos rfl]
    exact lastIndexFrom_of_not_mem c t (i + 1) i ht
  | cons x xs ih =>
    intro i last
    simp only [List.cons_append, List.length_cons]
    unfold lastIndexFrom
    rw [ih (i + 1)]
    congr 1
    omega

theorem split_last_mem (c : Char) (l : List Char) (h : c ∈ l) :
    ∃ pre t : List Char, c ∉ t ∧ l = pre ++ c :: t := by
  induction l with
  | nil => simp at h
  | cons x xs ih =>
    by_cases hx : c ∈ xs
    · obtain ⟨pre, t, ht, e⟩ := ih hx
      exact ⟨x :: pre, t, ht, by rw [e]; rfl⟩
    · have : c = x := by
        rcases List.mem_cons.mp h with h1 | h1
        · exact h1
        · exact absurd h1 hx
      subst this
      exact ⟨[], xs, hx, rfl⟩

theorem data_dot_append (n t : String) : (n ++ "." ++ t).data = n.data ++ '.' :: t.data := by
  simp [String.data_append]

/-- A host without a dot is its own name. -/
theorem director_name_of_no_dot (h : String) (hd : '.' ∉ h.data) : director.name h = h := by
  unfold director.name LastIndexByte
  rw [lastIndexFrom_of_not_mem '.' h.data 0 (-1) hd]
  simp

/-- The name of a host is what precedes its last dot. -/
theorem director_name_append (n t : String) (ht : '.' ∉ t.data) :
    director.name (n ++ "." ++ t) = n := by
  unfold director.name LastIndexByte
  rw [data_dot_append, lastIndexFrom_append '.' n.data t.data ht 0 (-1)]
  have hne : ¬ (((0 + n.data.length : Nat) : Int) = -1) := by omega
  simp only [hne, if_false, sliceTo, data_dot_append]
  apply String.ext
  simp

/-- Pruning a name without a dot leaves nothing. -/
theorem pruneSub_of_no_dot (name : String) (hd : '.' ∉ name.data) : pruneSub name = "" := by
  unfold pruneSub IndexByte
  rw [indexFrom_of_not_mem '.' name.data 0 hd]
  simp

/-- Pruning removes the first label and its dot. -/
theorem pruneSub_append (l rest : String) (hl : '.' ∉ l.data) :
    pruneSub (l ++ "." ++ rest) = rest := by
  unfold pruneSub IndexByte
  rw [data_dot_append, indexFrom_append '.' l.data rest.data 0 hl]
  have hne : ¬ (((0 + l.data.length : Nat) : Int) = -1) := by omega
  simp only [hne, if_false, sliceFrom, data_dot_append]
  apply String.ext
  have : (((0 + l.data.length : Nat) : Int) + 1).toNat = l.data.length + 1 := by omega
  rw [this]
  show List.drop (l.data.length + 1) (l.data ++ '.' :: rest.data) = rest.data
  rw [show l.data ++ '.' :: rest.data = (l.data ++ ['.']) ++ rest.data by simp]
  exact List.drop_left' (by simp)

theorem dot_append_ne_empty (a b : String) : a ++ "." ++ b ≠ "" := by
  intro h
  have := congrArg String.data h
  rw [data_dot_append] at this
  simp at this

/-- The candidates of a two-label name `a.b`. -/
theorem candidates_two_labels (a b : String) (ha : '.' ∉ a.data) (hb : '.' ∉ b.data)
    (hbne : b ≠ "") : candidates (a ++ "." ++ b) = [a ++ "." ++ b, b] := by
  rw [candidates_cons (dot_append_ne_empty a b), pruneSub_append a b ha,
    candidates_cons hbne, pruneSub_of_no_dot b hb, candidates_empty]

/-! ## Outcomes of `hostForApp` on a traced pool -/

theorem ready_traced_calls {σ : Type} (P : AppPool σ) (a : App) (s : σ) (t : List Call) :
    (hostForApp.ready P.traced a (s, t)).2.2 = t ++ [Call.WaitTilReady a] := by
  unfold hostForApp.ready
  rw [traced_WaitTilReady]
  rcases P.WaitTilReady a s with ⟨w, s1⟩
  cases w <;> rfl

theorem hostForApp_traced_routes {σ : Type} (P : AppPool σ) (name c : String)
    (pre post : List String) (a : App) (hc : candidates name = pre ++ c :: post)
    (hu : ∀ x ∈ pre, ∀ s, (P.App x s).1 = .error Error.ErrUnknownApp)
    (ha : ∀ s, (P.App c s).1 = .ok a) (hr : ∀ s, (P.WaitTilReady a s).1 = none)
    (s : σ) (t : List Call) :
    ∃ s1 : σ, hostForApp P.traced name (s, t) =
      ((a.Scheme, a.Address, none),
        (s1, t ++ (pre ++ [c]).map Call.App ++ [Call.WaitTilReady a])) := by
  obtain ⟨s0, h0⟩ := resolve_traced_found P name c pre post a hc hu ha s t
  refine ⟨(P.WaitTilReady a s0).2, ?_⟩
  rw [hostForApp_of_resolve_ok h0, @ready_of_nil _ P.traced a (s0, _) (hr s0),
    traced_WaitTilReady]

theorem hostForApp_traced_fatal {σ : Type} (P : AppPool σ) (name c : String)
    (pre post : List String) (e : Error) (hc : candidates name = pre ++ c :: post)
    (hu : ∀ x ∈ pre, ∀ s, (P.App x s).1 = .error Error.ErrUnknownApp)
    (he : e ≠ Error.ErrUnknownApp) (ha : ∀ s, (P.App c s).1 = .error e)
    (s : σ) (t : List Call) :
    ∃ s1 : σ, hostForApp P.traced name (s, t) =
      (("", "", some e), (s1, t ++ (pre ++ [c]).map Call.App)) := by
  obtain ⟨s0, h0⟩ := resolve_traced_fatal P name c pre post e hc hu he ha s t
  exact ⟨s0, hostForApp_of_resolve_error h0⟩

theorem hostForApp_traced_default {σ : Type} (P : AppPool σ) (name : String) (d : App)
    (hu : ∀ x ∈ candidates name, ∀ s, (P.App x s).1 = .error Error.ErrUnknownApp)
    (hd : ∀ s, (P.App "default" s).1 = .ok d) (hr : ∀ s, (P.WaitTilReady d s).1 = none)
    (s : σ) (t : List Call) :
    ∃ s1 : σ, hostForApp P.traced name (s, t) =
      ((d.Scheme, d.Address, none),
        (s1, t ++ (candidates name ++ ["default"]).map Call.App ++ [Call.WaitTilReady d])) := by
  obtain ⟨s0, h0⟩ := resolve_traced_default P name hu s t
  rw [hd s0] at h0
  refine ⟨(P.WaitTilReady d (P.App "default" s0).2).2, ?_⟩
  rw [hostForApp_of_resolve_ok h0,
    @ready_of_nil _ P.traced d ((P.App "default" s0).2, _) (hr _), traced_WaitTilReady]

theorem hostForApp_traced_default_error {σ : Type} (P : AppPool σ) (name : String)
    (e : Error)
    (hu : ∀ x ∈ candidates name, ∀ s, (P.App x s).1 = .error Error.ErrUnknownApp)
    (hd : ∀ s, (P.App "default" s).1 = .error e) (s : σ) (t : List Call) :
    ∃ s1 : σ, hostForApp P.traced name (s, t) =
      (("", "", some e), (s1, t ++ (candidates name ++ ["default"]).map Call.App)) := by
  obtain ⟨s0, h0⟩ := resolve_traced_default P name hu s t
  rw [hd s0] at h0
  exact ⟨_, hostForApp_of_resolve_error h0⟩

/-- The lookups of `hostForApp.resolve`: candidates, possibly followed by
`"default"`, and nothing else. -/
theorem resolve_traced_calls {σ : Type} (P : AppPool σ) (name : String) (s : σ)
    (t : List Call) :
    ∃ names : List String,
      (hostForApp.resolve P.traced name (s, t)).2.2 = t ++ names.map Call.App := by
  obtain ⟨names, _, hn⟩ := loop_traced_calls P name.length name s t
  rcases hl : hostForApp.loop P.traced name.length name (s, t) with ⟨r, s1, t1⟩
  rw [hl] at hn
  simp only at hn
  subst hn
  cases r with
  | error e => exact ⟨names, by rw [resolve_of_loop_error hl]⟩
  | ok found =>
    cases found with
    | none =>
      refine ⟨names ++ ["default"], ?_⟩
      rw [resolve_of_loop_none hl, traced_App]
      simp
    | some a => exact ⟨names, by rw [resolve_of_loop_found hl]⟩

/-! ## Claims on the resolution -/

/-- C1. When the pool answers `ErrUnknownApp` for every candidate before the
`k`-th, an application for the `k`-th, and that application becomes ready,
`director` returns no error and writes that application's scheme and address to
the request; the pool receives one lookup for each candidate up to the `k`-th,
then the readiness wait, and nothing else (no later candidate, no `"default"`). -/
theorem director_routes_to_first_registered {σ : Type} (P : AppPool σ) (req : Request)
    (k : Nat) (c : String) (a : App)
    (hk : (candidates (director.name req.Host))[k]? = some c)
    (hunk : ∀ i x, i < k → (candidates (director.name req.Host))[i]? = some x →
      ∀ s, (P.App x s).1 = .error Error.ErrUnknownApp)
    (hreg : ∀ s, (P.App c s).1 = .ok a)
    (hready : ∀ s, (P.WaitTilReady a s).1 = none) (s : σ) :
    (director P req s).1.2 = none ∧
    (director P req s).1.1.URL.Scheme = a.Scheme ∧
    (director P req s).1.1.URL.Host = a.Address ∧
    (director P.traced req (s, [])).2.2 =
      ((candidates (director.name req.Host)).take (k + 1)).map Call.App ++
        [Call.WaitTilReady a] := by
  obtain ⟨hsplit, htake⟩ := split_at_index _ k c hk
  have hu : ∀ x ∈ (candidates (director.name req.Host)).take k,
      ∀ s, (P.App x s).1 = .error Error.ErrUnknownApp := by
    intro x hx
    obtain ⟨i, hi, hxi⟩ := index_of_mem_take _ k x hx
    exact hunk i x hi hxi
  obtain ⟨s1, h⟩ := hostForApp_traced_routes P (director.name req.Host) c _ _ a hsplit hu
    hreg hready s []
  have e := (hostForApp_traced P (director.name req.Host) s []).1
  rw [h] at e
  simp only at e
  unfold director
  simp only [← e, h, htake, List.nil_append, and_self]

/-- C1, witness: host `api.myapp.test` with `myapp` registered and `api.myapp`
not registered is routed to `myapp`, after the lookups of `api.myapp` and
`myapp`. -/
theorem director_routes_to_first_registered_witness :
    (director (staticPool [fixtureApp "myapp" "127.0.0.1:3000"])
      (fixtureRequest "api.myapp.test") ()).1.2 = none ∧
    (director (staticPool [fixtureApp "myapp" "127.0.0.1:3000"])
      (fixtureRequest "api.myapp.test") ()).1.1.URL.Scheme = "http" ∧
    (director (staticPool [fixtureApp "myapp" "127.0.0.1:3000"])
      (fixtureRequest "api.myapp.test") ()).1.1.URL.Host = "127.0.0.1:3000" ∧
    (director (staticPool [fixtureApp "myapp" "127.0.0.1:3000"]).traced
      (fixtureRequest "api.myapp.test") ((), [])).2.2 =
      [Call.App "api.myapp", Call.App "myapp",
        Call.WaitTilReady (fixtureApp "myapp" "127.0.0.1:3000")] :=
  director_routes_to_first_registered (staticPool [fixtureApp "myapp" "127.0.0.1:3000"])
    (fixtureRequest "api.myapp.test") 1 "myapp" (fixtureApp "myapp" "127.0.0.1:3000")
    (by decide)
    (by
      intro i x hi hx s
      obtain rfl : i = 0 := by omega
      have h0 : (candidates (director.name (fixtureRequest "api.myapp.test").Host))[0]? =
          some "api.myapp" := by decide
      rw [h0] at hx
      obtain rfl := Option.some.inj hx
      rfl)
    (fun _ => rfl) (fun _ => rfl) ()

/-- C2, counterexample: with exactly `myapp.test` and `default` registered and
ready, the request for host `api.myapp.test` is not routed to `myapp.test`: the
pool is asked for `api.myapp`, `myapp` and `default`, never for `myapp.test`,
and the target is the address of `default`. -/
theorem director_sibling_label_counterexample :
    ((staticPool [fixtureApp "myapp.test" "127.0.0.1:5000",
        fixtureApp "default" "127.0.0.1:4000"]).App "myapp.test" ()).1 =
      .ok (fixtureApp "myapp.test" "127.0.0.1:5000") ∧
    (director (staticPool [fixtureApp "myapp.test" "127.0.0.1:5000",
        fixtureApp "default" "127.0.0.1:4000"])
      (fixtureRequest "api.myapp.test") ()).1.2 = none ∧
    (director (staticPool [fixtureApp "myapp.test" "127.0.0.1:5000",
        fixtureApp "default" "127.0.0.1:4000"])
      (fixtureRequest "api.myapp.test") ()).1.1.URL.Host ≠
      (fixtureApp "myapp.test" "127.0.0.1:5000").Address ∧
    (director (staticPool [fixtureApp "myapp.test" "127.0.0.1:5000",
        fixtureApp "default" "127.0.0.1:4000"]).traced
      (fixtureRequest "api.myapp.test") ((), [])).2.2 =
      [Call.App "api.myapp", Call.App "myapp", Call.App "default",
        Call.WaitTilReady (fixtureApp "default" "127.0.0.1:4000")] := by
  refine ⟨rfl, ?_, ?_, ?_⟩ <;> decide

/-- C2, amended.  For a host `a.b.c` with non-empty labels without dots and a
pool that answers `ErrUnknownApp` for `a.b` and has `b` registered and ready,
`director` succeeds and targets the scheme and address of `b`, after looking up
`a.b` and `b` only.  For host `api.myapp.test` and the pool whose applications
are exactly `myapp.test` and `default`, `director` targets `default`. -/
theorem director_routes_to_middle_label {σ : Type} (P : AppPool σ) (req : Request)
    (a b c : String) (app : App)
    (ha : a ≠ "" ∧ '.' ∉ a.data) (hb : b ≠ "" ∧ '.' ∉ b.data) (hc : c ≠ "" ∧ '.' ∉ c.data)
    (hhost : req.Host = a ++ "." ++ b ++ "." ++ c)
    (hab : ∀ s, (P.App (a ++ "." ++ b) s).1 = .error Error.ErrUnknownApp)
    (hreg : ∀ s, (P.App b s).1 = .ok app)
    (hready : ∀ s, (P.WaitTilReady app s).1 = none) (s : σ) :
    ((director P req s).1.2 = none ∧
     (director P req s).1.1.URL.Scheme = app.Scheme ∧
     (director P req s).1.1.URL.Host = app.Address ∧
     (director P.traced req (s, [])).2.2 =
       [Call.App (a ++ "." ++ b), Call.App b, Call.WaitTilReady app]) ∧
    ((director (staticPool [fixtureApp "myapp.test" "127.0.0.1:5000",
        fixtureApp "default" "127.0.0.1:4000"])
      (fixtureRequest "api.myapp.test") ()).1.2 = none ∧
     (director (staticPool [fixtureApp "myapp.test" "127.0.0.1:5000",
        fixtureApp "default" "127.0.0.1:4000"])
      (fixtureRequest "api.myapp.test") ()).1.1.URL.Scheme =
        (fixtureApp "default" "127.0.0.1:4000").Scheme ∧
     (director (staticPool [fixtureApp "myapp.test" "127.0.0.1:5000",
        fixtureApp "default" "127.0.0.1:4000"])
      (fixtureRequest "api.myapp.test") ()).1.1.URL.Host =
        (fixtureApp "default" "127.0.0.1:4000").Address) := by
  refine ⟨?_, by decide, by decide, by decide⟩
  have hname : director.name req.Host = a ++ "." ++ b := by
    rw [hhost]
    exact director_name_append (a ++ "." ++ b) c hc.2
  have hcand : candidates (director.name req.Host) = [a ++ "." ++ b] ++ b :: [] := by
    rw [hname, candidates_two_labels a b ha.2 hb.2 hb.1]
    rfl
  have hu : ∀ x ∈ [a ++ "." ++ b], ∀ s, (P.App x s).1 = .error Error.ErrUnknownApp := by
    intro x hx
    rw [List.mem_singleton.mp hx]
    exact hab
  obtain ⟨s1, h⟩ := hostForApp_traced_routes P (director.name req.Host) b _ _ app hcand hu
    hreg hready s []
  have e := (hostForApp_traced P (director.name req.Host) s []).1
  rw [h] at e
  simp only at e
  unfold director
  simp only [← e, h, List.nil_append, and_self, true_and]
  rfl

/-- C2, amended, witness: host `api.myapp.test` with `myapp` registered. -/
theorem director_routes_to_middle_label_witness :
    (director (staticPool [fixtureApp "myapp" "127.0.0.1:3000"])
      (fixtureRequest "api.myapp.test") ()).1.1.URL.Host = "127.0.0.1:3000" ∧
    (director (staticPool [fixtureApp "myapp" "127.0.0.1:3000"]).traced
      (fixtureRequest "api.myapp.test") ((), [])).2.2 =
      [Call.App "api.myapp", Call.App "myapp",
        Call.WaitTilReady (fixtureApp "myapp" "127.0.0.1:3000")] :=
  have h := (director_routes_to_middle_label
    (staticPool [fixtureApp "myapp" "127.0.0.1:3000"])
    (fixtureRequest "api.myapp.test") "api" "myapp" "test"
    (fixtureApp "myapp" "127.0.0.1:3000")
    (by decide) (by decide) (by decide) (by decide)
    (fun _ => rfl) (fun _ => rfl) (fun _ => rfl) ()).1
  ⟨h.2.2.1, h.2.2.2⟩

/-- C3. When the pool answers `ErrUnknownApp` for every candidate of the name
(there is none for the empty name), `hostForApp` looks up `"default"` after
them: if that lookup yields an application that becomes ready, its scheme and
address are returned with a nil error; if it fails with an error `e`,
`hostForApp` returns `("", "", e)`. -/
theorem hostForApp_falls_back_to_default {σ : Type} (P : AppPool σ) (name : String)
    (hunk : ∀ x ∈ candidates name, ∀ s, (P.App x s).1 = .error Error.ErrUnknownApp) :
    (∀ d : App, (∀ s, (P.App "default" s).1 = .ok d) →
      (∀ s, (P.WaitTilReady d s).1 = none) → ∀ s : σ,
        (hostForApp P name s).1 = (d.Scheme, d.Address, none) ∧
        (hostForApp P.traced name (s, [])).2.2 =
          (candidates name).map Call.App ++ [Call.App "default", Call.WaitTilReady d]) ∧
    (∀ e : Error, (∀ s, (P.App "default" s).1 = .error e) → ∀ s : σ,
        (hostForApp P name s).1 = ("", "", some e) ∧
        (hostForApp P.traced name (s, [])).2.2 =
          (candidates name).map Call.App ++ [Call.App "default"]) := by
  constructor
  · intro d hd hr s
    obtain ⟨s1, h⟩ := hostForApp_traced_default P name d hunk hd hr s []
    have e := (hostForApp_traced P name s []).1
    rw [h] at e
    exact ⟨e.symm, by rw [h]; simp⟩
  · intro e hd s
    obtain ⟨s1, h⟩ := hostForApp_traced_default_error P name e hunk hd s []
    have e := (hostForApp_traced P name s []).1
    rw [h] at e
    exact ⟨e.symm, by rw [h]; simp⟩

/-- C3, witness: no application but `default` is registered; the name `x.nosuch`
resolves to `default` after the lookups of `x.nosuch` and `nosuch`. -/
theorem hostForApp_falls_back_to_default_witness :
    (hostForApp (staticPool [fixtureApp "default" "127.0.0.1:4000"]) "x.nosuch" ()).1 =
      ("http", "127.0.0.1:4000", none) ∧
    (hostForApp (staticPool [fixtureApp "default" "127.0.0.1:4000"]).traced "x.nosuch"
        ((), [])).2.2 =
      [Call.App "x.nosuch", Call.App "nosuch", Call.App "default",
        Call.WaitTilReady (fixtureApp "default" "127.0.0.1:4000")] :=
  (hostForApp_falls_back_to_default (staticPool [fixtureApp "default" "127.0.0.1:4000"])
    "x.nosuch"
    (by
      intro x hx s
      have hc : candidates "x.nosuch" = ["x.nosuch", "nosuch"] := by decide
      rw [hc] at hx
      simp only [List.mem_cons, List.mem_singleton, List.not_mem_nil, or_false] at hx
      rcases hx with rfl | rfl <;> rfl)).1
    (fixtureApp "default" "127.0.0.1:4000") (fun _ => rfl) (fun _ => rfl) ()

/-- C4. When the pool answers `ErrUnknownApp` for every candidate derived from
the host and for `"default"`, `director` returns exactly `ErrUnknownApp`. -/
theorem director_unknown_without_default {σ : Type} (P : AppPool σ) (req : Request)
    (hunk : ∀ x ∈ candidates (director.name req.Host), ∀ s,
      (P.App x s).1 = .error Error.ErrUnknownApp)
    (hdef : ∀ s, (P.App "default" s).1 = .error Error.ErrUnknownApp) (s : σ) :
    (director P req s).1.2 = some Error.ErrUnknownApp := by
  obtain ⟨s1, h⟩ := hostForApp_traced_default_error P (director.name req.Host)
    Error.ErrUnknownApp hunk hdef s []
  have e := (hostForApp_traced P (director.name req.Host) s []).1
  rw [h] at e
  unfold director
  simp only [← e]

/-- C4, witness: the empty pool and host `api.myapp.test`. -/
theorem director_unknown_without_default_witness :
    (director (staticPool []) (fixtureRequest "api.myapp.test") ()).1.2 =
      some Error.ErrUnknownApp :=
  director_unknown_without_default (staticPool []) (fixtureRequest "api.myapp.test")
    (fun _ _ _ => rfl) (fun _ => rfl) ()

/-- C5. When the pool answers `ErrUnknownApp` for every candidate before the
`k`-th and an error `e` other than `ErrUnknownApp` for the `k`-th, `hostForApp`
returns `("", "", e)`, and the pool has received the lookups of the candidates
up to the `k`-th and nothing else: no later candidate, no `"default"`, no
readiness wait. -/
theorem hostForApp_propagates_fatal_error {σ : Type} (P : AppPool σ) (name : String)
    (k : Nat) (c : String) (e : Error)
    (hk : (candidates name)[k]? = some c)
    (hunk : ∀ i x, i < k → (candidates name)[i]? = some x →
      ∀ s, (P.App x s).1 = .error Error.ErrUnknownApp)
    (he : e ≠ Error.ErrUnknownApp)
    (hfatal : ∀ s, (P.App c s).1 = .error e) (s : σ) :
    (hostForApp P name s).1 = ("", "", some e) ∧
    (hostForApp P.traced name (s, [])).2.2 = ((candidates name).take (k + 1)).map Call.App := by
  obtain ⟨hsplit, htake⟩ := split_at_index _ k c hk
  have hu : ∀ x ∈ (candidates name).take k,
      ∀ s, (P.App x s).1 = .error Error.ErrUnknownApp := by
    intro x hx
    obtain ⟨i, hi, hxi⟩ := index_of_mem_take _ k x hx
    exact hunk i x hi hxi
  obtain ⟨s1, h⟩ := hostForApp_traced_fatal P name c _ _ e hsplit hu he hfatal s []
  have e1 := (hostForApp_traced P name s []).1
  rw [h] at e1
  exact ⟨e1.symm, by rw [h, htake]; simp⟩

/-- C5, witness: a pool that fails with an error of its own on `myapp`. -/
theorem hostForApp_propagates_fatal_error_witness :
    (hostForApp (brokenPool "myapp" (Error.other "stat: permission denied"))
      "api.myapp" ()).1 = ("", "", some (Error.other "stat: permission denied")) ∧
    (hostForApp (brokenPool "myapp" (Error.other "stat: permission denied")).traced
      "api.myapp" ((), [])).2.2 = [Call.App "api.myapp", Call.App "myapp"] :=
  hostForApp_propagates_fatal_error (brokenPool "myapp" (Error.other "stat: permission denied"))
    "api.myapp" 1 "myapp" (Error.other "stat: permission denied")
    (by decide)
    (by
      intro i x hi hx s
      obtain rfl : i = 0 := by omega
      have h0 : (candidates "api.myapp")[0]? = some "api.myapp" := by decide
      rw [h0] at hx
      obtain rfl := Option.some.inj hx
      rfl)
    (by decide) (fun _ => rfl) ()

/-- C6. Whenever lines 72 to 91 of `hostForApp` resolve an application (from the
loop or as `"default"`), the readiness wait is called once, on that application,
as the last call to the pool, all earlier calls being lookups; an error of the
wait is returned as `("", "", e)`; a successful wait returns the application's
scheme and address.  The returned error is nil exactly when an application was
resolved and its wait returned nil. -/
theorem hostForApp_waits_on_resolved {σ : Type} (P : AppPool σ) (name : String) (s : σ) :
    (∀ (a : App) (s1 : σ), hostForApp.resolve P name s = (.ok a, s1) →
      (∃ names : List String, (hostForApp P.traced name (s, [])).2.2 =
        names.map Call.App ++ [Call.WaitTilReady a]) ∧
      (∀ e, (P.WaitTilReady a s1).1 = some e → (hostForApp P name s).1 = ("", "", some e)) ∧
      ((P.WaitTilReady a s1).1 = none →
        (hostForApp P name s).1 = (a.Scheme, a.Address, none))) ∧
    ((hostForApp P name s).1.2.2 = none ↔
      ∃ (a : App) (s1 : σ), hostForApp.resolve P name s = (.ok a, s1) ∧
        (P.WaitTilReady a s1).1 = none) := by
  constructor
  · intro a s1 hres
    refine ⟨?_, ?_, ?_⟩
    · obtain ⟨names, hn⟩ := resolve_traced_calls P name s []
      obtain ⟨h1, h2⟩ := resolve_traced P name s []
      rcases hrt : hostForApp.resolve P.traced name (s, []) with ⟨r, s2, t2⟩
      rw [hrt] at hn h1 h2
      rw [hres] at h1 h2
      simp only at hn h1 h2
      subst h1 h2 hn
      refine ⟨names, ?_⟩
      rw [hostForApp_of_resolve_ok hrt, ready_traced_calls]
      simp
    · intro e he
      rw [hostForApp_of_resolve_ok hres, ready_of_error he]
    · intro he
      rw [hostForApp_of_resolve_ok hres, ready_of_nil he]
  · constructor
    · intro h
      rcases hres : hostForApp.resolve P name s with ⟨r, s1⟩
      cases r with
      | error e =>
        rw [hostForApp_of_resolve_error hres] at h
        simp at h
      | ok a =>
        refine ⟨a, s1, rfl, ?_⟩
        rw [hostForApp_of_resolve_ok hres] at h
        cases hw : (P.WaitTilReady a s1).1 with
        | none => rfl
        | some e =>
          rw [ready_of_error hw] at h
          simp at h
    · rintro ⟨a, s1, hres, hw⟩
      rw [hostForApp_of_resolve_ok hres, ready_of_nil hw]

/-- C6, witness: `myapp` is resolved from the loop and waited for. -/
theorem hostForApp_waits_on_resolved_witness :
    (∃ names : List String,
      (hostForApp (staticPool [fixtureApp "myapp" "127.0.0.1:3000"]).traced "api.myapp"
        ((), [])).2.2 =
        names.map Call.App ++ [Call.WaitTilReady (fixtureApp "myapp" "127.0.0.1:3000")]) ∧
    (hostForApp (staticPool [fixtureApp "myapp" "127.0.0.1:3000"]) "api.myapp" ()).1 =
      ("http", "127.0.0.1:3000", none) :=
  have h := (hostForApp_waits_on_resolved (staticPool [fixtureApp "myapp" "127.0.0.1:3000"])
    "api.myapp" ()).1 (fixtureApp "myapp" "127.0.0.1:3000") () rfl
  ⟨h.1, h.2.2 rfl⟩

/-! ## Claims on the dispatcher and the status reporter -/

/-- C7. `ServeHTTP` invokes exactly one handler, once, with the request and the
world it received: the mux when `req.Host` is exactly `puma-dev`, the proxy for
every other host, among them `puma-dev.test`, `puma-dev:80`, `Puma-Dev` and the
empty host. -/
theorem ServeHTTP_dispatches_on_host {ω : Type} (h : HTTPServer ω) (req : Request) (w : ω) :
    ServeHTTP h.logged req (w, []) =
      (if req.Host = "puma-dev" then (h.mux req w, [Handler.mux])
       else (h.proxy req w, [Handler.proxy])) ∧
    ((ServeHTTP h.logged req (w, [])).2 = [Handler.mux] ↔ req.Host = "puma-dev") ∧
    ((ServeHTTP h.logged req (w, [])).2 = [Handler.proxy] ↔ req.Host ≠ "puma-dev") ∧
    (ServeHTTP h.logged { req with Host := "puma-dev" } (w, [])).2 = [Handler.mux] ∧
    (ServeHTTP h.logged { req with Host := "puma-dev.test" } (w, [])).2 = [Handler.proxy] ∧
    (ServeHTTP h.logged { req with Host := "puma-dev:80" } (w, [])).2 = [Handler.proxy] ∧
    (ServeHTTP h.logged { req with Host := "Puma-Dev" } (w, [])).2 = [Handler.proxy] ∧
    (ServeHTTP h.logged { req with Host := "" } (w, [])).2 = [Handler.proxy] := by
  refine ⟨?_, ?_, ?_, ?_, ?_, ?_, ?_, ?_⟩
  · unfold ServeHTTP
    by_cases hh : req.Host = "puma-dev" <;> simp [hh, HTTPServer.logged]
  · unfold ServeHTTP
    by_cases hh : req.Host = "puma-dev" <;> simp [hh, HTTPServer.logged]
  · unfold ServeHTTP
    by_cases hh : req.Host = "puma-dev" <;> simp [hh, HTTPServer.logged]
  · simp [ServeHTTP, HTTPServer.logged]
  · have hne : ¬ ("puma-dev.test" = "puma-dev") := by decide
    simp [ServeHTTP, HTTPServer.logged, hne]
  · have hne : ¬ ("puma-dev:80" = "puma-dev") := by decide
    simp [ServeHTTP, HTTPServer.logged, hne]
  · have hne : ¬ ("Puma-Dev" = "puma-dev") := by decide
    simp [ServeHTTP, HTTPServer.logged, hne]
  · have hne : ¬ ("" = "puma-dev") := by decide
    simp [ServeHTTP, HTTPServer.logged, hne]

/-- C8. On a server wired as by `Setup`, a request whose host is `puma-dev` is
answered by the mux alone, whatever the pool holds and whatever the proxy engine
would do: the pool receives no lookup and no readiness wait, only the
enumeration `ForApps` when the request matches the status route; the pool state
is the one `ForApps` leaves, hence unchanged when `ForApps` only reads. -/
theorem ServeHTTP_sentinel_never_resolves {σ β : Type} (P : AppPool σ) (K : StatusConsts)
    (route : Request → Bool) (encode : List (String × appStatus) → β → β)
    (notFound : β → β)
    (engine : (Request → σ × List Call → (Request × Option Error) × (σ × List Call)) →
      Request → (σ × List Call) × β → (σ × List Call) × β)
    (req : Request) (hhost : req.Host = "puma-dev") (s : σ) (b : β) :
    ServeHTTP (Setup P.traced K route encode notFound engine) req ((s, []), b) =
      (if route req then
        (((P.ForApps s).2, [Call.ForApps]), encode (status.statuses P K s).1 b)
       else ((s, []), notFound b)) ∧
    (∀ c ∈ (ServeHTTP (Setup P.traced K route encode notFound engine) req ((s, []), b)).1.2,
      c = Call.ForApps) ∧
    ((∀ x, (P.ForApps x).2 = x) →
      (ServeHTTP (Setup P.traced K route encode notFound engine) req ((s, []), b)).1.1 = s) ∧
    (ServeHTTP (Setup P.traced K route encode notFound engine).logged req
      (((s, []), b), [])).2 = [Handler.mux] := by
  have hrun : ServeHTTP (Setup P.traced K route encode notFound engine) req ((s, []), b) =
      (if route req then
        (((P.ForApps s).2, [Call.ForApps]), encode (status.statuses P K s).1 b)
       else ((s, []), notFound b)) := by
    unfold ServeHTTP
    rw [if_pos hhost]
    cases hr : route req <;> simp [Setup, hr, status, status.statuses, AppPool.traced]
  refine ⟨hrun, ?_, ?_, ?_⟩
  · rw [hrun]
    cases hr : route req <;> simp
  · intro hro
    rw [hrun]
    cases hr : route req <;> simp [hro]
  · simp [ServeHTTP, HTTPServer.logged, hhost]

/-- C8, witness: a pool with an application registered under the name
`puma-dev`; the request `GET /` on host `puma-dev` matches no route and leaves
the pool without any call. -/
theorem ServeHTTP_sentinel_never_resolves_witness :
    (ServeHTTP
      (Setup (staticPool [fixtureApp "puma-dev" "127.0.0.1:3000"]).traced
        { Dead := 2, Booting := 0, Running := 1 }
        (fun r => decide (r.Method = "GET" ∧ r.URL.Path = "/status"))
        (fun m (_ : List (List (String × appStatus))) => [m]) (fun _ => [])
        (fun dir r w => ((dir r w.1).2, w.2)))
      (fixtureRequest "puma-dev") (((), []), [])).1.2 = [] := by
  have h := (ServeHTTP_sentinel_never_resolves
    (staticPool [fixtureApp "puma-dev" "127.0.0.1:3000"])
    { Dead := 2, Booting := 0, Running := 1 }
    (fun r => decide (r.Method = "GET" ∧ r.URL.Path = "/status"))
    (fun m (_ : List (List (String × appStatus))) => [m]) (fun _ => [])
    (fun dir r w => ((dir r w.1).2, w.2))
    (fixtureRequest "puma-dev") rfl () []).1
  rw [h]
  decide

/-- C9. With `Dead`, `Booting` and `Running` three distinct constants (Go rejects
a `switch` with duplicate constant cases), the status string is `dead` for
`Dead`, `booting` for `Booting`, `running` for `Running` and `unknown` for every
other value; it is always one of these four strings, and it is the string the
callback stores in the entry of the application. -/
theorem status_string_of_status (K : StatusConsts) (hdb : K.Dead ≠ K.Booting)
    (hdr : K.Dead ≠ K.Running) (hbr : K.Booting ≠ K.Running) (st : Int) :
    (st = K.Dead → status.statusString K st = "dead") ∧
    (st = K.Booting → status.statusString K st = "booting") ∧
    (st = K.Running → status.statusString K st = "running") ∧
    (st ≠ K.Dead ∧ st ≠ K.Booting ∧ st ≠ K.Running →
      status.statusString K st = "unknown") ∧
    status.statusString K st ∈ ["dead", "booting", "running", "unknown"] ∧
    (∀ (m : List (String × appStatus)) (a : App), a.Status = st →
      ∃ e ∈ status.visit K m a, e.1 = a.Name ∧ e.2.Status = status.statusString K st) := by
  refine ⟨?_, ?_, ?_, ?_, ?_, ?_⟩
  · intro h
    simp [status.statusString, h]
  · intro h
    subst h
    simp [status.statusString, Ne.symm hdb]
  · intro h
    subst h
    simp [status.statusString, Ne.symm hdr, Ne.symm hbr]
  · rintro ⟨h1, h2, h3⟩
    simp [status.statusString, h1, h2, h3]
  · unfold status.statusString
    split
    · simp
    · split
      · simp
      · split <;> simp
  · intro m a ha
    refine ⟨(a.Name, ⟨a.Scheme, a.Address, status.statusString K a.Status, a.Log⟩),
      ?_, rfl, ?_⟩
    · unfold status.visit mapSet
      exact List.mem_append_right _ (List.mem_singleton.mpr rfl)
    · simp [ha]

/-- C9, witness: with `Booting = 0`, `Running = 1`, `Dead = 2`, the
out-of-range value `7` is reported as `unknown`. -/
theorem status_string_of_status_witness :
    status.statusString { Dead := 2, Booting := 0, Running := 1 } 7 = "unknown" :=
  (status_string_of_status { Dead := 2, Booting := 0, Running := 1 }
    (by decide) (by decide) (by decide) 7).2.2.2.1 (by decide)

/-- C10. The name `director` hands to `hostForApp` is the host itself when the
host has no dot, and otherwise the part of the host before its last dot: the
host is the name, a dot, and a rest without dot, and any such decomposition of
the host gives the name.  The cut is made once: `a.b.c` gives `a.b`, `.test`
gives the empty name and `test.` gives `test`. -/
theorem director_name_cuts_last_label (h : String) :
    ('.' ∉ h.data → director.name h = h) ∧
    ('.' ∈ h.data → ∃ t : String, '.' ∉ t.data ∧ h = director.name h ++ "." ++ t) ∧
    (∀ n t : String, '.' ∉ t.data → h = n ++ "." ++ t → director.name h = n) ∧
    (∀ (σ : Type) (P : AppPool σ) (req : Request) (s : σ), req.Host = h →
      (director P req s).1.2 = (hostForApp P (director.name h) s).1.2.2) ∧
    director.name "a.b.c" = "a.b" ∧ director.name ".test" = "" ∧
    director.name "test." = "test" := by
  refine ⟨director_name_of_no_dot h, ?_, ?_, ?_, by decide, by decide, by decide⟩
  · intro hd
    obtain ⟨pre, t, ht, e⟩ := split_last_mem '.' h.data hd
    have hh : h = (⟨pre⟩ : String) ++ "." ++ ⟨t⟩ := by
      apply String.ext
      rw [data_dot_append, e]
    refine ⟨⟨t⟩, ht, ?_⟩
    rw [hh, director_name_append ⟨pre⟩ ⟨t⟩ ht]
  · intro n t ht e
    rw [e]
    exact director_name_append n t ht
  · intro σ P req s e
    rw [← e]
    rfl

/-- C10, witness: the host `api.myapp.test` is `api.myapp`, a dot and `test`. -/
theorem director_name_cuts_last_label_witness : director.name "api.myapp.test" = "api.myapp" :=
  (director_name_cuts_last_label "api.myapp.test").2.2.1 "api.myapp" "test"
    (by decide) (by decide)

/-! ## Claims on pruning and termination -/

theorem count_dot_append (n t : String) :
    (n ++ "." ++ t).data.count '.' = n.data.count '.' + 1 + t.data.count '.' := by
  rw [data_dot_append, List.count_append, List.count_cons_self]
  omega

theorem mem_split_first (c : Char) (l : List Char) (h : c ∈ l) :
    ∃ pre rest : List Char, c ∉ pre ∧ l = pre ++ c :: rest := by
  induction l with
  | nil => simp at h
  | cons x xs ih =>
    by_cases hx : x = c
    · exact ⟨[], xs, by simp, by rw [hx]; rfl⟩
    · have hmem : c ∈ xs := by
        rcases List.mem_cons.mp h with h1 | h1
        · exact absurd h1.symm hx
        · exact h1
      obtain ⟨pre, rest, hp, e⟩ := ih hmem
      refine ⟨x :: pre, rest, ?_, by rw [e]; rfl⟩
      simp only [List.mem_cons, not_or]
      exact ⟨fun e => hx e.symm, hp⟩

/-- A name with a dot is a first label without dot, a dot, and a rest. -/
theorem split_first_dot (name : String) (h : '.' ∈ name.data) :
    ∃ l rest : String, '.' ∉ l.data ∧ name = l ++ "." ++ rest := by
  obtain ⟨pre, rest, hp, e⟩ := mem_split_first '.' name.data h
  refine ⟨⟨pre⟩, ⟨rest⟩, hp, ?_⟩
  apply String.ext
  rw [data_dot_append, e]

/-- The loop presents at most one candidate more than the name has dots. -/
theorem candidates_length_le (n : Nat) :
    ∀ name : String, name.length ≤ n →
      (candidates name).length ≤ name.data.count '.' + 1 := by
  induction n with
  | zero =>
    intro name hn
    rw [eq_empty_of_length_zero (by omega : name.length = 0), candidates_empty]
    simp
  | succ n ih =>
    intro name hn
    by_cases hname : name = ""
    · rw [hname, candidates_empty]
      simp
    · rw [candidates_cons hname]
      by_cases hd : '.' ∈ name.data
      · obtain ⟨l, rest, hl, e⟩ := split_first_dot name hd
        have hlt := pruneSub_length_lt hname
        have hrest := ih (pruneSub name) (by omega)
        rw [e, pruneSub_append l rest hl] at hrest ⊢
        rw [count_dot_append, List.length_cons]
        omega
      · rw [pruneSub_of_no_dot name hd, candidates_empty]
        simp

/-- C17. `pruneSub` of a name without a dot is the empty string; otherwise it
is the part of the name strictly after its first dot: for a name made of a
label without dot, a dot and a rest, it is the rest. -/
theorem pruneSub_removes_first_label (name : String) :
    ('.' ∉ name.data → pruneSub name = "") ∧
    (∀ l rest : String, '.' ∉ l.data → name = l ++ "." ++ rest → pruneSub name = rest) ∧
    ('.' ∈ name.data → ∃ l rest : String, '.' ∉ l.data ∧ name = l ++ "." ++ rest ∧
      pruneSub name = rest) ∧
    pruneSub "a.b.c" = "b.c" ∧ pruneSub "a." = "" ∧ pruneSub ".b" = "b" := by
  refine ⟨pruneSub_of_no_dot name, ?_, ?_, by decide, by decide, by decide⟩
  · intro l rest hl e
    rw [e]
    exact pruneSub_append l rest hl
  · intro hd
    obtain ⟨l, rest, hl, e⟩ := split_first_dot name hd
    exact ⟨l, rest, hl, e, by rw [e]; exact pruneSub_append l rest hl⟩

/-- C17, witness: `api.myapp` is the label `api`, a dot and `myapp`. -/
theorem pruneSub_removes_first_label_witness : pruneSub "api.myapp" = "myapp" :=
  (pruneSub_removes_first_label "api.myapp").2.1 "api" "myapp" (by decide) (by decide)

/-- C18. Pruning a non-empty name gives a strictly shorter name.  The loop of
`hostForApp`, run with the length of the name as bound, is the unbounded loop;
on every pool it sends lookups for an initial segment of the candidates, at most
one more than the name has dots, and `hostForApp` as a whole sends at most one
lookup more than the loop. -/
theorem hostForApp_loop_terminates {σ : Type} (P : AppPool σ) (name : String) (s : σ) :
    (name ≠ "" → (pruneSub name).length < name.length) ∧
    (∀ fuel, name.length ≤ fuel →
      hostForApp.loop P fuel name s = hostForApp.loop P name.length name s) ∧
    (∃ names : List String, names <+: candidates name ∧
      names.length ≤ name.data.count '.' + 1 ∧
      (hostForApp.loop P.traced name.length name (s, [])).2.2 = names.map Call.App) ∧
    ((hostForApp P.traced name (s, [])).2.2.filter Call.isApp).length ≤ name.data.count '.' + 2 := by
  have hloop : ∃ names : List String, names <+: candidates name ∧
      names.length ≤ name.data.count '.' + 1 ∧
      (hostForApp.loop P.traced name.length name (s, [])).2.2 = names.map Call.App := by
    obtain ⟨names, hp, hn⟩ := loop_traced_calls P name.length name s []
    refine ⟨names, hp, ?_, by rw [hn]; simp⟩
    exact le_trans hp.length_le (candidates_length_le name.length name (le_refl _))
  refine ⟨pruneSub_length_lt, fun fuel h => loop_fuel P fuel fuel name s (le_refl _) h,
    hloop, ?_⟩
  obtain ⟨names, _, hlen, hn⟩ := hloop
  rcases hl : hostForApp.loop P.traced name.length name (s, []) with ⟨r, s1, t1⟩
  rw [hl] at hn
  simp only at hn
  subst hn
  have hfilter : ∀ l : List String,
      ((l.map Call.App).filter Call.isApp).length = l.length := by
    intro l
    induction l with
    | nil => rfl
    | cons x xs ih => simp [List.filter, Call.isApp, ih]
  cases r with
  | error e =>
    rw [hostForApp_of_resolve_error (resolve_of_loop_error hl)]
    simp only
    rw [hfilter]
    omega
  | ok found =>
    cases found with
    | some a =>
      rw [hostForApp_of_resolve_ok (resolve_of_loop_found hl), ready_traced_calls,
        List.filter_append, List.length_append, hfilter]
      simp [List.filter, Call.isApp]
      omega
    | none =>
      have hres := resolve_of_loop_none hl
      rw [traced_App] at hres
      rcases hd : (P.App "default" s1).1 with e | d
      · rw [hd] at hres
        rw [hostForApp_of_resolve_error hres]
        simp only
        rw [List.filter_append, List.length_append, hfilter]
        simp [List.filter, Call.isApp]
        omega
      · rw [hd] at hres
        rw [hostForApp_of_resolve_ok hres, ready_traced_calls,
          List.filter_append, List.filter_append, List.length_append, List.length_append,
          hfilter]
        simp [List.filter, Call.isApp]
        omega

/-- C18, witness: the name `a.b.c` has two dots; with nothing registered the loop
sends its three lookups and `hostForApp` the lookup of `default` after them. -/
theorem hostForApp_loop_terminates_witness :
    (pruneSub "a.b.c").length < "a.b.c".length ∧
    (hostForApp (staticPool []).traced "a.b.c" ((), [])).2.2 =
      [Call.App "a.b.c", Call.App "b.c", Call.App "c", Call.App "default"] :=
  ⟨(hostForApp_loop_terminates (staticPool []) "a.b.c" ()).1 (by decide), by decide⟩

/-! ## Claims on the outcome of `director` -/

theorem ready_fst {σ : Type} (P : AppPool σ) (a : App) (s : σ) :
    (hostForApp.ready P a s).1 =
      match (P.WaitTilReady a s).1 with
      | some e => ("", "", some e)
      | none => (a.Scheme, a.Address, none) := by
  unfold hostForApp.ready
  rcases P.WaitTilReady a s with ⟨w, s1⟩
  cases w <;> rfl

/-- Every return of `hostForApp` with an error carries two empty strings. -/
theorem hostForApp_error_strings {σ : Type} (P : AppPool σ) (name : String) (s : σ)
    (h : (hostForApp P name s).1.2.2 ≠ none) :
    (hostForApp P name s).1.1 = "" ∧ (hostForApp P name s).1.2.1 = "" := by
  rcases hres : hostForApp.resolve P name s with ⟨r, s1⟩
  cases r with
  | error e =>
    rw [hostForApp_of_resolve_error hres]
    exact ⟨rfl, rfl⟩
  | ok a =>
    rw [hostForApp_of_resolve_ok hres] at h ⊢
    rw [ready_fst] at h ⊢
    cases hw : (P.WaitTilReady a s1).1 with
    | none => rw [hw] at h; exact absurd rfl h
    | some e => exact ⟨rfl, rfl⟩

/-- A nil error of `hostForApp` comes with the scheme and address of the
application that lines 72 to 91 resolved. -/
theorem hostForApp_nil_resolved {σ : Type} (P : AppPool σ) (name : String) (s : σ)
    (h : (hostForApp P name s).1.2.2 = none) :
    ∃ (a : App) (s1 : σ), hostForApp.resolve P name s = (.ok a, s1) ∧
      (hostForApp P name s).1 = (a.Scheme, a.Address, none) := by
  rcases hres : hostForApp.resolve P name s with ⟨r, s1⟩
  cases r with
  | error e =>
    rw [hostForApp_of_resolve_error hres] at h
    simp at h
  | ok a =>
    refine ⟨a, s1, rfl, ?_⟩
    rw [hostForApp_of_resolve_ok hres] at h ⊢
    rw [ready_fst] at h ⊢
    cases hw : (P.WaitTilReady a s1).1 with
    | none => rfl
    | some e => rw [hw] at h; simp at h

/-- The loop never leaves the function with `ErrUnknownApp`. -/
theorem loop_never_unknown {σ : Type} (P : AppPool σ) (fuel : Nat) :
    ∀ (name : String) (s : σ),
      (hostForApp.loop P fuel name s).1 ≠ .error Error.ErrUnknownApp := by
  induction fuel with
  | zero => intro name s h; simp [hostForApp.loop] at h
  | succ fuel ih =>
    intro name s
    by_cases hname : name = ""
    · subst hname
      rw [loop_empty]
      simp
    · rw [loop_succ P fuel name s hname]
      rcases P.App name s with ⟨r, s1⟩
      cases r with
      | error err =>
        by_cases he : err = Error.ErrUnknownApp
        · simp only [he, if_true]
          exact ih (pruneSub name) s1
        · simp only [he, if_false]
          intro h
          exact he (Except.error.inj h)
      | ok app => simp

/-- An application held by the variable `app` after the loop was answered by
the pool. -/
theorem loop_found_from_pool {σ : Type} (P : AppPool σ) (fuel : Nat) :
    ∀ (name : String) (s s1 : σ) (a : App),
      hostForApp.loop P fuel name s = (.ok (some a), s1) →
      ∃ (n : String) (s0 : σ), (P.App n s0).1 = .ok a := by
  induction fuel with
  | zero => intro name s s1 a h; simp [hostForApp.loop] at h
  | succ fuel ih =>
    intro name s s1 a h
    by_cases hname : name = ""
    · subst hname
      rw [loop_empty] at h
      simp at h
    · rw [loop_succ P fuel name s hname] at h
      rcases hp : P.App name s with ⟨r, s2⟩
      rw [hp] at h
      cases r with
      | error err =>
        by_cases he : err = Error.ErrUnknownApp
        · simp only [he, if_true] at h
          exact ih (pruneSub name) s2 s1 a h
        · simp [he] at h
      | ok app =>
        simp only [Prod.mk.injEq, Except.ok.injEq, Option.some.injEq] at h
        refine ⟨name, s, ?_⟩
        rw [hp, ← h.1]

theorem resolve_from_pool {σ : Type} (P : AppPool σ) (name : String) (s s1 : σ) (a : App)
    (h : hostForApp.resolve P name s = (.ok a, s1)) :
    ∃ (n : String) (s0 : σ), (P.App n s0).1 = .ok a := by
  rcases hl : hostForApp.loop P name.length name s with ⟨r, s2⟩
  cases r with
  | error e =>
    rw [resolve_of_loop_error hl] at h
    simp at h
  | ok found =>
    cases found with
    | none =>
      rw [resolve_of_loop_none hl] at h
      exact ⟨"default", s2, by rw [h]⟩
    | some b =>
      rw [resolve_of_loop_found hl] at h
      simp only [Prod.mk.injEq, Except.ok.injEq] at h
      obtain ⟨n, s0, hn⟩ := loop_found_from_pool P name.length name s s2 b hl
      exact ⟨n, s0, by rw [hn, h.1]⟩

/-- An `ErrUnknownApp` returned by `hostForApp` was answered by the lookup of
`"default"` or by the readiness wait. -/
theorem hostForApp_unknown_source {σ : Type} (P : AppPool σ) (name : String) (s : σ)
    (h : (hostForApp P name s).1.2.2 = some Error.ErrUnknownApp) :
    (∃ s1, (P.App "default" s1).1 = .error Error.ErrUnknownApp) ∨
    (∃ a s1, (P.WaitTilReady a s1).1 = some Error.ErrUnknownApp) := by
  rcases hres : hostForApp.resolve P name s with ⟨r, s1⟩
  cases r with
  | ok a =>
    right
    rw [hostForApp_of_resolve_ok hres, ready_fst] at h
    refine ⟨a, s1, ?_⟩
    cases hw : (P.WaitTilReady a s1).1 with
    | none => rw [hw] at h; simp at h
    | some e => rw [hw] at h; simp only [Option.some.injEq] at h; rw [h]
  | error e =>
    rw [hostForApp_of_resolve_error hres] at h
    simp only [Option.some.injEq] at h
    subst h
    left
    rcases hl : hostForApp.loop P name.length name s with ⟨q, s2⟩
    cases q with
    | error e2 =>
      rw [resolve_of_loop_error hl] at hres
      simp only [Prod.mk.injEq, Except.error.injEq] at hres
      have := loop_never_unknown P name.length name s
      rw [hl, hres.1] at this
      exact absurd rfl this
    | ok found =>
      cases found with
      | none =>
        rw [resolve_of_loop_none hl] at hres
        exact ⟨s2, by rw [hres]⟩
      | some b =>
        rw [resolve_of_loop_found hl] at hres
        simp at hres

/-- When the answers of `Pool.App` do not depend on the pool state, neither does
the outcome of the loop. -/
theorem loop_answers_indep {σ : Type} (P : AppPool σ)
    (hA : ∀ n s s1, (P.App n s).1 = (P.App n s1).1) (fuel : Nat) :
    ∀ (name : String) (s s1 : σ),
      (hostForApp.loop P fuel name s).1 = (hostForApp.loop P fuel name s1).1 := by
  induction fuel with
  | zero => intro name s s1; rfl
  | succ fuel ih =>
    intro name s s1
    by_cases hname : name = ""
    · subst hname
      rw [loop_empty, loop_empty]
    · rw [loop_succ P fuel name s hname, loop_succ P fuel name s1 hname]
      have h := hA name s s1
      rcases h1 : P.App name s with ⟨r, t⟩
      rcases h2 : P.App name s1 with ⟨r1, t1⟩
      rw [h1, h2] at h
      simp only at h
      subst h
      cases r with
      | error err =>
        by_cases he : err = Error.ErrUnknownApp
        · simp only [he, if_true]
          exact ih (pruneSub name) t t1
        · simp only [he, if_false]
      | ok app => rfl

theorem resolve_answers_indep {σ : Type} (P : AppPool σ)
    (hA : ∀ n s s1, (P.App n s).1 = (P.App n s1).1) (name : String) (s s1 : σ) :
    (hostForApp.resolve P name s).1 = (hostForApp.resolve P name s1).1 := by
  have h := loop_answers_indep P hA name.length name s s1
  rcases hl : hostForApp.loop P name.length name s with ⟨r, t⟩
  rcases hl1 : hostForApp.loop P name.length name s1 with ⟨r1, t1⟩
  rw [hl, hl1] at h
  simp only at h
  subst h
  cases r with
  | error e => rw [resolve_of_loop_error hl, resolve_of_loop_error hl1]
  | ok found =>
    cases found with
    | none =>
      rw [resolve_of_loop_none hl, resolve_of_loop_none hl1]
      exact hA "default" t t1
    | some a => rw [resolve_of_loop_found hl, resolve_of_loop_found hl1]

theorem hostForApp_answers_indep {σ : Type} (P : AppPool σ)
    (hA : ∀ n s s1, (P.App n s).1 = (P.App n s1).1)
    (hW : ∀ a s s1, (P.WaitTilReady a s).1 = (P.WaitTilReady a s1).1)
    (name : String) (s s1 : σ) :
    (hostForApp P name s).1 = (hostForApp P name s1).1 := by
  have h := resolve_answers_indep P hA name s s1
  rcases hl : hostForApp.resolve P name s with ⟨r, t⟩
  rcases hl1 : hostForApp.resolve P name s1 with ⟨r1, t1⟩
  rw [hl, hl1] at h
  simp only at h
  subst h
  cases r with
  | error e => rw [hostForApp_of_resolve_error hl, hostForApp_of_resolve_error hl1]
  | ok a =>
    rw [hostForApp_of_resolve_ok hl, hostForApp_of_resolve_ok hl1, ready_fst, ready_fst,
      hW a t t1]

/-- An application answered by a static pool is one of its applications. -/
theorem staticPool_answers_registered (apps : List App) (n : String) (s : Unit) (a : App)
    (h : ((staticPool apps).App n s).1 = .ok a) : a ∈ apps := by
  simp only [staticPool] at h
  cases hf : apps.find? (fun a => a.Name = n) with
  | none => rw [hf] at h; simp at h
  | some b =>
    rw [hf] at h
    simp only [Except.ok.injEq] at h
    rw [← h]
    exact List.mem_of_find?_eq_some hf

/-- C12. In a pool whose answers to `App` and `WaitTilReady` depend on their
argument only, two runs of `director` on requests with the same host, the
second from the pool state the first has left (or from any other state), return
the same error and write the same scheme and address. -/
theorem director_same_host_same_outcome {σ : Type} (P : AppPool σ)
    (hA : ∀ n s s1, (P.App n s).1 = (P.App n s1).1)
    (hW : ∀ a s s1, (P.WaitTilReady a s).1 = (P.WaitTilReady a s1).1)
    (req req1 : Request) (hhost : req1.Host = req.Host) (s : σ) :
    ((director P req1 (director P req s).2).1.2 = (director P req s).1.2 ∧
     (director P req1 (director P req s).2).1.1.URL.Scheme =
       (director P req s).1.1.URL.Scheme ∧
     (director P req1 (director P req s).2).1.1.URL.Host =
       (director P req s).1.1.URL.Host) ∧
    (∀ s1 : σ, (director P req1 s1).1.2 = (director P req s).1.2 ∧
     (director P req1 s1).1.1.URL.Scheme = (director P req s).1.1.URL.Scheme ∧
     (director P req1 s1).1.1.URL.Host = (director P req s).1.1.URL.Host) := by
  have key : ∀ s1 : σ, (director P req1 s1).1.2 = (director P req s).1.2 ∧
      (director P req1 s1).1.1.URL.Scheme = (director P req s).1.1.URL.Scheme ∧
      (director P req1 s1).1.1.URL.Host = (director P req s).1.1.URL.Host := by
    intro s1
    have h := hostForApp_answers_indep P hA hW (director.name req.Host) s1 s
    unfold director
    simp only [hhost, h, and_self]
  exact ⟨key _, key⟩

/-- C12, witness: a pool whose state changes with every call; the second run
on host `api.myapp.test` starts from the state the first has left. -/
theorem director_same_host_same_outcome_witness :
    (director (countingPool [fixtureApp "myapp" "127.0.0.1:3000"])
      (fixtureRequest "api.myapp.test") 0).2 = 3 ∧
    (director (countingPool [fixtureApp "myapp" "127.0.0.1:3000"])
      (fixtureRequest "api.myapp.test") 3).1.1.URL.Host =
      (director (countingPool [fixtureApp "myapp" "127.0.0.1:3000"])
        (fixtureRequest "api.myapp.test") 0).1.1.URL.Host :=
  ⟨by decide,
    (director_same_host_same_outcome (countingPool [fixtureApp "myapp" "127.0.0.1:3000"])
      (fun _ _ _ => by simp only [countingPool]; split <;> rfl) (fun _ _ _ => rfl)
      (fixtureRequest "api.myapp.test") (fixtureRequest "api.myapp.test") rfl 0).1.2.2⟩

/-- C13, counterexample: a pool whose application `myapp` has an empty scheme
and an empty address; `director` returns no error on host `myapp.test` and
leaves an empty scheme and an empty host in the request. -/
theorem director_empty_target_counterexample :
    (director (staticPool [⟨"myapp", "", "", 0, ""⟩]) (fixtureRequest "myapp.test") ()).1.2 =
      none ∧
    (director (staticPool [⟨"myapp", "", "", 0, ""⟩])
      (fixtureRequest "myapp.test") ()).1.1.URL.Scheme = "" ∧
    (director (staticPool [⟨"myapp", "", "", 0, ""⟩])
      (fixtureRequest "myapp.test") ()).1.1.URL.Host = "" := by
  decide

/-- C13, amended.  If `director` returns a nil error, the scheme and host of the
request are the scheme and address of one application answered by the pool;
they are non-empty when the scheme and address of that application are, and so
in every pool that only answers applications with a non-empty scheme and
address. -/
theorem director_nil_targets_application {σ : Type} (P : AppPool σ) (req : Request) (s : σ)
    (hnil : (director P req s).1.2 = none) :
    (∃ (a : App) (n : String) (s0 : σ), (P.App n s0).1 = .ok a ∧
      (director P req s).1.1.URL.Scheme = a.Scheme ∧
      (director P req s).1.1.URL.Host = a.Address ∧
      (a.Scheme ≠ "" → (director P req s).1.1.URL.Scheme ≠ "") ∧
      (a.Address ≠ "" → (director P req s).1.1.URL.Host ≠ "")) ∧
    ((∀ n s0 a, (P.App n s0).1 = .ok a → a.Scheme ≠ "" ∧ a.Address ≠ "") →
      (director P req s).1.1.URL.Scheme ≠ "" ∧ (director P req s).1.1.URL.Host ≠ "") := by
  have hnil1 : (hostForApp P (director.name req.Host) s).1.2.2 = none := hnil
  obtain ⟨a, s1, hres, hret⟩ := hostForApp_nil_resolved P (director.name req.Host) s hnil1
  obtain ⟨n, s0, hn⟩ := resolve_from_pool P (director.name req.Host) s s1 a hres
  have hs : (director P req s).1.1.URL.Scheme = a.Scheme := by
    unfold director
    simp only [hret]
  have hh : (director P req s).1.1.URL.Host = a.Address := by
    unfold director
    simp only [hret]
  refine ⟨⟨a, n, s0, hn, hs, hh, fun h => by rw [hs]; exact h, fun h => by rw [hh]; exact h⟩,
    ?_⟩
  intro hpool
  rw [hs, hh]
  exact hpool n s0 a hn

/-- C13, amended, witness: host `api.myapp.test` with `myapp` registered. -/
theorem director_nil_targets_application_witness :
    (director (staticPool [fixtureApp "myapp" "127.0.0.1:3000"])
      (fixtureRequest "api.myapp.test") ()).1.1.URL.Scheme ≠ "" ∧
    (director (staticPool [fixtureApp "myapp" "127.0.0.1:3000"])
      (fixtureRequest "api.myapp.test") ()).1.1.URL.Host ≠ "" :=
  (director_nil_targets_application (staticPool [fixtureApp "myapp" "127.0.0.1:3000"])
    (fixtureRequest "api.myapp.test") () (by decide)).2
    (by
      intro n s0 a h
      have hmem := staticPool_answers_registered _ n s0 a h
      rw [List.mem_singleton.mp hmem]
      decide)

/-- C14, counterexample: with nothing registered, not even `default`, the error
`director` returns on host `nosuch.test` is `ErrUnknownApp`. -/
theorem director_surfaces_unknown_counterexample :
    (director (staticPool []) (fixtureRequest "nosuch.test") ()).1.2 =
      some Error.ErrUnknownApp ∧
    (director (staticPool []).traced (fixtureRequest "nosuch.test") ((), [])).2.2 =
      [Call.App "nosuch", Call.App "default"] := by
  decide

/-- C14, amended.  An `ErrUnknownApp` answered for a candidate is handled inside
the loop by pruning and never returned from the loop.  `director` returns
`ErrUnknownApp` only when the lookup of `"default"` or the readiness wait answers
it: in a pool where neither does, `director` never returns `ErrUnknownApp`. -/
theorem director_unknown_only_from_default {σ : Type} (P : AppPool σ) (req : Request)
    (hdef : ∀ s, (P.App "default" s).1 ≠ .error Error.ErrUnknownApp)
    (hwait : ∀ a s, (P.WaitTilReady a s).1 ≠ some Error.ErrUnknownApp) (s : σ) :
    (director P req s).1.2 ≠ some Error.ErrUnknownApp ∧
    (∀ (name : String) (s1 : σ),
      (hostForApp.loop P name.length name s1).1 ≠ .error Error.ErrUnknownApp) := by
  refine ⟨?_, fun name s1 => loop_never_unknown P name.length name s1⟩
  intro h
  have h1 : (hostForApp P (director.name req.Host) s).1.2.2 = some Error.ErrUnknownApp := h
  rcases hostForApp_unknown_source P (director.name req.Host) s h1 with ⟨s1, hs⟩ | ⟨a, s1, hs⟩
  · exact hdef s1 hs
  · exact hwait a s1 hs

/-- C14, amended, witness: with `default` registered, host `nosuch.test` is
served by `default` and no `ErrUnknownApp` is returned. -/
theorem director_unknown_only_from_default_witness :
    (director (staticPool [fixtureApp "default" "127.0.0.1:4000"])
      (fixtureRequest "nosuch.test") ()).1.2 ≠ some Error.ErrUnknownApp :=
  (director_unknown_only_from_default (staticPool [fixtureApp "default" "127.0.0.1:4000"])
    (fixtureRequest "nosuch.test")
    (fun _ h => by simp [staticPool, fixtureApp, List.find?] at h)
    (fun _ _ h => by simp [staticPool] at h) ()).1

/-- C15, counterexample: with `myapp` alone registered, no prefix of the host
`api.myapp.test` and no `default` is registered, yet `director` succeeds, targets
`myapp` and calls its readiness wait. -/
theorem director_prefix_counterexample :
    (∀ p : String, p.data <+: "api.myapp.test".data →
      ((staticPool [fixtureApp "myapp" "127.0.0.1:3000"]).App p ()).1 =
        .error Error.ErrUnknownApp) ∧
    ((staticPool [fixtureApp "myapp" "127.0.0.1:3000"]).App "default" ()).1 =
      .error Error.ErrUnknownApp ∧
    (director (staticPool [fixtureApp "myapp" "127.0.0.1:3000"])
      (fixtureRequest "api.myapp.test") ()).1.2 = none ∧
    (director (staticPool [fixtureApp "myapp" "127.0.0.1:3000"])
      (fixtureRequest "api.myapp.test") ()).1.1.URL.Host = "127.0.0.1:3000" ∧
    (director (staticPool [fixtureApp "myapp" "127.0.0.1:3000"]).traced
      (fixtureRequest "api.myapp.test") ((), [])).2.2 =
      [Call.App "api.myapp", Call.App "myapp",
        Call.WaitTilReady (fixtureApp "myapp" "127.0.0.1:3000")] := by
  refine ⟨?_, rfl, by decide, by decide, by decide⟩
  intro p hp
  have hne : ¬ ("myapp" = p) := by
    intro e
    rw [← e] at hp
    exact absurd hp (by decide)
  simp [staticPool, fixtureApp, List.find?, hne]

/-- C15, amended.  When the pool answers `ErrUnknownApp` for every candidate name
derived from the host and for `"default"`, `director` returns a non-nil error,
leaves an empty scheme and an empty host in the request, and the pool has
received the lookups of the candidates and of `"default"` only: no readiness
wait. -/
theorem director_fails_without_target {σ : Type} (P : AppPool σ) (req : Request)
    (hunk : ∀ x ∈ candidates (director.name req.Host), ∀ s,
      (P.App x s).1 = .error Error.ErrUnknownApp)
    (hdef : ∀ s, (P.App "default" s).1 = .error Error.ErrUnknownApp) (s : σ) :
    (director P req s).1.2 ≠ none ∧
    (director P req s).1.1.URL.Scheme = "" ∧
    (director P req s).1.1.URL.Host = "" ∧
    (director P.traced req (s, [])).2.2 =
      (candidates (director.name req.Host) ++ ["default"]).map Call.App ∧
    (∀ c ∈ (director P.traced req (s, [])).2.2, Call.isWait c = false) := by
  obtain ⟨s1, h⟩ := hostForApp_traced_default_error P (director.name req.Host)
    Error.ErrUnknownApp hunk hdef s []
  have e := (hostForApp_traced P (director.name req.Host) s []).1
  rw [h] at e
  have htrace : (director P.traced req (s, [])).2.2 =
      (candidates (director.name req.Host) ++ ["default"]).map Call.App := by
    unfold director
    simp only [h, List.nil_append]
  refine ⟨?_, ?_, ?_, htrace, ?_⟩
  · unfold director
    simp [← e]
  · unfold director
    simp [← e]
  · unfold director
    simp [← e]
  · intro c hc
    rw [htrace] at hc
    obtain ⟨x, _, hx⟩ := List.mem_map.mp hc
    rw [← hx]
    rfl

/-- C15, amended, witness: the empty pool and host `api.myapp.test`. -/
theorem director_fails_without_target_witness :
    (director (staticPool []) (fixtureRequest "api.myapp.test") ()).1.2 ≠ none ∧
    (director (staticPool []).traced (fixtureRequest "api.myapp.test") ((), [])).2.2 =
      [Call.App "api.myapp", Call.App "myapp", Call.App "default"] :=
  have h := director_fails_without_target (staticPool []) (fixtureRequest "api.myapp.test")
    (fun _ _ _ => rfl) (fun _ => rfl) ()
  ⟨h.1, h.2.2.2.1⟩

/-- C19. `director` leaves the method, the host, the path and the query of the
request as they were; the scheme and host of its URL are the two strings
`hostForApp` returns, and both are the empty string whenever `director` returns
an error. -/
theorem director_writes_only_target {σ : Type} (P : AppPool σ) (req : Request) (s : σ) :
    (director P req s).1.1.Method = req.Method ∧
    (director P req s).1.1.Host = req.Host ∧
    (director P req s).1.1.URL.Path = req.URL.Path ∧
    (director P req s).1.1.URL.RawQuery = req.URL.RawQuery ∧
    (director P req s).1.1.URL.Scheme = (hostForApp P (director.name req.Host) s).1.1 ∧
    (director P req s).1.1.URL.Host = (hostForApp P (director.name req.Host) s).1.2.1 ∧
    ((director P req s).1.2 ≠ none →
      (director P req s).1.1.URL.Scheme = "" ∧ (director P req s).1.1.URL.Host = "") := by
  refine ⟨rfl, rfl, rfl, rfl, rfl, rfl, ?_⟩
  intro h
  exact hostForApp_error_strings P (director.name req.Host) s h

/-- C19, witness: a request that arrives with scheme `https` and host `old` in
its URL leaves `director` with both empty when nothing is registered. -/
theorem director_writes_only_target_witness :
    (director (staticPool [])
      ⟨"GET", "api.myapp.test", ⟨"https", "old", "/x", "q=1"⟩⟩ ()).1.1.URL.Scheme = "" ∧
    (director (staticPool [])
      ⟨"GET", "api.myapp.test", ⟨"https", "old", "/x", "q=1"⟩⟩ ()).1.1.URL.Host = "" :=
  (director_writes_only_target (staticPool [])
    ⟨"GET", "api.myapp.test", ⟨"https", "old", "/x", "q=1"⟩⟩ ()).2.2.2.2.2.2 (by decide)

/-! ## Claims on the close notification -/

/-- C16. Whatever application closed, `AppClosed` invokes
`CloseIdleConnections` on the transport once and does nothing else; afterwards
the transport holds no idle connection, whatever their hosts, and the same
connections in use. -/
theorem AppClosed_closes_all_idle (app : App) (t : Transport) :
    AppClosed Transport.CloseIdleConnections app t = t.CloseIdleConnections ∧
    (AppClosed Transport.CloseIdleConnections app t).idle = [] ∧
    (AppClosed Transport.CloseIdleConnections app t).inUse = t.inUse ∧
    (∀ other : App, AppClosed Transport.CloseIdleConnections other t =
      AppClosed Transport.CloseIdleConnections app t) ∧
    (∀ (τ : Type) (op : τ → τ) (x : τ), AppClosed (counted op) app (x, 0) = (op x, 1)) ∧
    (AppClosed Transport.CloseIdleConnections (fixtureApp "myapp" "127.0.0.1:3000")
      { idle := [⟨"http", "127.0.0.1:3000"⟩, ⟨"http", "127.0.0.1:4000"⟩],
        inUse := [⟨"http", "127.0.0.1:5000"⟩] }).idle = [] :=
  ⟨rfl, rfl, rfl, fun _ => rfl, fun _ _ _ => rfl, rfl⟩

/-! ## Claims on the status map -/

theorem visit_eq (K : StatusConsts) (m : List (String × appStatus)) (a : App) :
    status.visit K m a = mapSet m a.Name (status.entry K a) := rfl

theorem mem_mapSet (m : List (String × appStatus)) (k : String) (v : appStatus)
    (e : String × appStatus) :
    e ∈ mapSet m k v ↔ (e ∈ m ∧ e.1 ≠ k) ∨ e = (k, v) := by
  simp [mapSet, List.mem_filter]

theorem keys_mapSet (m : List (String × appStatus)) (k : String) (v : appStatus) :
    (mapSet m k v).map Prod.fst = (m.map Prod.fst).filter (fun x => x ≠ k) ++ [k] := by
  simp only [mapSet, List.map_append, List.map_cons, List.map_nil]
  rw [List.filter_map]
  rfl

theorem foldl_visit_concat (K : StatusConsts) (apps : List App) (a : App) :
    (apps ++ [a]).foldl (status.visit K) [] =
      mapSet (apps.foldl (status.visit K) []) a.Name (status.entry K a) := by
  rw [List.foldl_append]
  rfl

/-- The map holds at most one entry under a name. -/
theorem statuses_keys_nodup (K : StatusConsts) (apps : List App) :
    ((apps.foldl (status.visit K) []).map Prod.fst).Nodup := by
  induction apps using List.reverseRecOn with
  | nil => exact List.nodup_nil
  | append_singleton l a ih =>
    rw [foldl_visit_concat, keys_mapSet]
    refine List.Nodup.append (ih.filter _) (List.nodup_singleton _) ?_
    intro x hx hk
    rw [List.mem_singleton] at hk
    rw [List.mem_filter] at hx
    simp [hk] at hx

/-- The entries of the map are those of the applications visited last under
their name. -/
theorem mem_statuses_iff (K : StatusConsts) (apps : List App) (e : String × appStatus) :
    e ∈ apps.foldl (status.visit K) [] ↔
      ∃ (pre : List App) (a : App) (post : List App), apps = pre ++ a :: post ∧
        (∀ b ∈ post, b.Name ≠ a.Name) ∧ e = (a.Name, status.entry K a) := by
  induction apps using List.reverseRecOn with
  | nil => simp
  | append_singleton l x ih =>
    rw [foldl_visit_concat, mem_mapSet]
    constructor
    · rintro (⟨hm, hne⟩ | he)
      · obtain ⟨pre, a, post, hl, hpost, hea⟩ := ih.mp hm
        refine ⟨pre, a, post ++ [x], by rw [hl]; simp, ?_, hea⟩
        intro b hb
        rcases List.mem_append.mp hb with h1 | h1
        · exact hpost b h1
        · rw [List.mem_singleton.mp h1]
          intro hx
          apply hne
          rw [hea, hx]
      · exact ⟨l, x, [], rfl, by simp, he⟩
    · rintro ⟨pre, a, post, hl, hpost, hea⟩
      rcases List.eq_nil_or_concat post with hp | ⟨L, b, hp⟩
      · subst hp
        have hinj := List.append_inj' hl rfl
        simp only [List.cons.injEq, and_true] at hinj
        right
        rw [hea, ← hinj.2]
      · rw [List.concat_eq_append] at hp
        subst hp
        have hl2 : l ++ [x] = (pre ++ a :: L) ++ [b] := by rw [hl]; simp
        have hinj := List.append_inj' hl2 rfl
        simp only [List.cons.injEq, and_true] at hinj
        left
        constructor
        · refine ih.mpr ⟨pre, a, L, hinj.1, ?_, hea⟩
          intro c hc
          exact hpost c (List.mem_append_left _ hc)
        · rw [hea, hinj.2]
          exact fun h => hpost b (List.mem_append_right _ (List.mem_singleton.mpr rfl)) h.symm

theorem split_last_named (apps : List App) (k : String) (h : ∃ a ∈ apps, a.Name = k) :
    ∃ (pre : List App) (a : App) (post : List App), apps = pre ++ a :: post ∧
      a.Name = k ∧ ∀ b ∈ post, b.Name ≠ k := by
  induction apps with
  | nil => obtain ⟨a, ha, _⟩ := h; simp at ha
  | cons x xs ih =>
    by_cases hx : ∃ a ∈ xs, a.Name = k
    · obtain ⟨pre, a, post, e, hk, hpost⟩ := ih hx
      exact ⟨x :: pre, a, post, by rw [e]; rfl, hk, hpost⟩
    · obtain ⟨a, ha, hk⟩ := h
      have hax : a = x := by
        rcases List.mem_cons.mp ha with h1 | h1
        · exact h1
        · exact absurd ⟨a, h1, hk⟩ hx
      subst hax
      refine ⟨[], a, xs, rfl, hk, ?_⟩
      intro b hb hbk
      exact hx ⟨b, hb, hbk⟩

/-- The names with an entry are the names visited. -/
theorem statuses_keys_iff (K : StatusConsts) (apps : List App) (k : String) :
    k ∈ (apps.foldl (status.visit K) []).map Prod.fst ↔ k ∈ apps.map App.Name := by
  rw [List.mem_map, List.mem_map]
  constructor
  · rintro ⟨e, he, hk⟩
    obtain ⟨pre, a, post, hl, _, hea⟩ := (mem_statuses_iff K apps e).mp he
    refine ⟨a, by rw [hl]; simp, ?_⟩
    rw [← hk, hea]
  · rintro ⟨a, ha, hk⟩
    obtain ⟨pre, b, post, hl, hb, hpost⟩ := split_last_named apps k ⟨a, ha, hk⟩
    refine ⟨(b.Name, status.entry K b), ?_, hb⟩
    exact (mem_statuses_iff K apps _).mpr ⟨pre, b, post, hl, by rw [hb]; exact hpost, rfl⟩

/-- The map has one entry for each distinct name visited. -/
theorem statuses_length (K : StatusConsts) (apps : List App) :
    (apps.foldl (status.visit K) []).length = (apps.map App.Name).dedup.length := by
  have hperm : ((apps.foldl (status.visit K) []).map Prod.fst).Perm
      (apps.map App.Name).dedup := by
    refine (List.perm_ext_iff_of_nodup (statuses_keys_nodup K apps) (List.nodup_dedup _)).mpr ?_
    intro k
    rw [statuses_keys_iff, List.mem_dedup]
  have := hperm.length_eq
  rwa [List.length_map] at this

/-- C11. For every sequence of applications visited by `ForApps`, each known
application under its own name (the visited names are pairwise distinct), the
map built by `status` has exactly one entry per visited application, keyed by
its name and holding its scheme, address, status string and log; the number of
entries is the number of applications visited, and no entry exists for a name
that was not visited. -/
theorem status_map_entries {σ : Type} (P : AppPool σ) (K : StatusConsts) (s : σ)
    (hdistinct : ((P.ForApps s).1.map App.Name).Nodup) :
    ((status.statuses P K s).1.map Prod.fst).Nodup ∧
    (∀ a ∈ (P.ForApps s).1,
      (a.Name, ⟨a.Scheme, a.Address, status.statusString K a.Status, a.Log⟩) ∈
        (status.statuses P K s).1) ∧
    (∀ a ∈ (P.ForApps s).1, ∀ v : appStatus, (a.Name, v) ∈ (status.statuses P K s).1 →
      v = ⟨a.Scheme, a.Address, status.statusString K a.Status, a.Log⟩) ∧
    (status.statuses P K s).1.length = (P.ForApps s).1.length ∧
    (∀ k, k ∈ (status.statuses P K s).1.map Prod.fst ↔ ∃ a ∈ (P.ForApps s).1, a.Name = k) ∧
    (∀ e ∈ (status.statuses P K s).1, ∃ a ∈ (P.ForApps s).1,
      e = (a.Name, ⟨a.Scheme, a.Address, status.statusString K a.Status, a.Log⟩)) := by
  have hmap : (status.statuses P K s).1 = (P.ForApps s).1.foldl (status.visit K) [] := rfl
  rw [hmap]
  refine ⟨statuses_keys_nodup K _, ?_, ?_, ?_, ?_, ?_⟩
  · intro a ha
    obtain ⟨pre, post, hl⟩ := List.append_of_mem ha
    refine (mem_statuses_iff K _ _).mpr ⟨pre, a, post, hl, ?_, rfl⟩
    have hnd := hdistinct
    rw [hl, List.map_append, List.map_cons] at hnd
    have h1 := (List.nodup_cons.mp (List.nodup_append.mp hnd).2.1).1
    intro b hb hba
    exact h1 (by rw [← hba]; exact List.mem_map_of_mem _ hb)
  · intro a ha v hv
    obtain ⟨pre, b, post, hl, _, hea⟩ := (mem_statuses_iff K _ _).mp hv
    have hb : b ∈ (P.ForApps s).1 := by rw [hl]; simp
    simp only [Prod.mk.injEq] at hea
    have hab : a = b := List.inj_on_of_nodup_map hdistinct ha hb hea.1
    rw [hea.2, hab]
    rfl
  · rw [statuses_length, hdistinct.dedup, List.length_map]
  · intro k
    rw [statuses_keys_iff, List.mem_map]
  · intro e he
    obtain ⟨pre, a, post, hl, _, hea⟩ := (mem_statuses_iff K _ e).mp he
    exact ⟨a, by rw [hl]; simp, hea⟩

/-- C11, witness: the applications `myapp` and `default` give two entries, the
one under `myapp` holding its address and the status string `booting`. -/
theorem status_map_entries_witness :
    (status.statuses (staticPool [fixtureApp "myapp" "127.0.0.1:3000",
        fixtureApp "default" "127.0.0.1:4000"])
      { Dead := 2, Booting := 0, Running := 1 } ()).1.length = 2 ∧
    ("myapp", ⟨"http", "127.0.0.1:3000", "booting", ""⟩) ∈
      (status.statuses (staticPool [fixtureApp "myapp" "127.0.0.1:3000",
        fixtureApp "default" "127.0.0.1:4000"])
      { Dead := 2, Booting := 0, Running := 1 } ()).1 :=
  have h := status_map_entries (staticPool [fixtureApp "myapp" "127.0.0.1:3000",
        fixtureApp "default" "127.0.0.1:4000"])
      { Dead := 2, Booting := 0, Running := 1 } () (by decide)
  ⟨h.2.2.2.1, h.2.1 (fixtureApp "myapp" "127.0.0.1:3000") (by decide)⟩

end PumaDev
